import Mathlib

/-!
Verification development for a falling-block puzzle engine (Tetris-style).
The definitions below are a shallow embedding of the game core:
the playing field, tetromino blocks with rotation and wall kicks,
collision/overflow tests, hard-drop distance, locking and line clearing,
the menu widget, and the per-tick game state machine.

Machine integers (i16/u16/u32) are modelled as Int/Nat: all values reached
by the game are far below the overflow bounds.  Code paths that panic in
the original (out-of-range indexing, `unwrap`, unreachable match arms) are
modelled with Option, returning none exactly where the original panics.
The ambient thread RNG used to shuffle the piece bag is modelled as an
explicit oracle argument giving the content of each refill.
-/

namespace Tetris

/-- The seven tetromino kinds. -/
inductive Tetromino
  | I | T | J | L | S | Z | O
deriving DecidableEq

/-- Rotation states (`Rotation` in tetromino.rs). -/
inductive Rotation
  | Default | CW | Reverse | CCW
deriving DecidableEq

/-- Rotation arity of a kind (`Direction` in tetromino.rs). -/
inductive Direction
  | None | Half | Full
deriving DecidableEq

/-- Base shape tables (`Figure::SHAPE` for each kind). -/
def Tetromino.shape : Tetromino → List (List Nat)
  | .I => [[0,0,0,0],[1,1,1,1],[0,0,0,0],[0,0,0,0]]
  | .T => [[0,2,0],[2,2,2],[0,0,0]]
  | .J => [[3,0,0],[3,3,3],[0,0,0]]
  | .L => [[0,0,4],[4,4,4],[0,0,0]]
  | .S => [[0,5,5],[5,5,0],[0,0,0]]
  | .Z => [[6,6,0],[0,6,6],[0,0,0]]
  | .O => [[7,7],[7,7]]

/-- `Tetromino::dir`. -/
def Tetromino.dir : Tetromino → Direction
  | .T | .L | .J => .Full
  | .I | .S | .Z => .Half
  | .O => .None

/-- `Rotation::next`; the `unreachable!()` arm is `none`. -/
def Rotation.next (r : Rotation) (d : Direction) : Option Rotation :=
  match d, r with
  | .None, .Default => some .Default
  | .Half, .Default => some .CCW
  | .Half, .CCW => some .Default
  | .Full, .Default => some .CW
  | .Full, .CW => some .Reverse
  | .Full, .Reverse => some .CCW
  | .Full, .CCW => some .Default
  | _, _ => none

/-- `Tetromino::wallkick`; the `unreachable!()` arms are `none`. -/
def Tetromino.wallkick (t : Tetromino) (r : Rotation) : Option (List (Int × Int)) :=
  match t with
  | .T | .L | .J =>
    match r with
    | .Default => some [(0,0), (-1,0), (-1,1), (0,-2), (-1,-2)]
    | .CW => some [(0,0), (1,0), (1,-1), (0,2), (1,2)]
    | .Reverse => some [(0,0), (1,0), (1,1), (0,-2), (1,-2)]
    | .CCW => some [(0,0), (-1,0), (-1,-1), (0,2), (-1,2)]
  | .S | .Z =>
    match r with
    | .Default => some [(0,0), (1,0), (1,1), (0,-2), (1,-2)]
    | .CCW => some [(0,0), (-1,0), (-1,-1), (0,2), (-1,2)]
    | _ => none
  | .I =>
    match r with
    | .Default => some [(0,0), (-1,0), (2,0), (-1,2), (2,-1)]
    | .CCW => some [(0,0), (1,0), (-2,0), (1,-2), (-2,1)]
    | _ => none
  | .O => some [(0,0)]

/-- Construction parameters (`Settings`); `delay` in milliseconds. -/
structure Settings where
  cols : Nat
  rows : Nat
  delay : Nat
deriving DecidableEq

/-- An active piece (`Block` in tetromino.rs). -/
structure Block where
  tetromino : Tetromino
  rotation : Rotation
  x : Int
  y : Int
  saved_rotation : Option Rotation
  saved_x : Option Int
  saved_y : Option Int
deriving DecidableEq

/-- Cell lookup in a row-major matrix; out-of-range reads give 0
(used only where the original code performs a bounds-checked read). -/
def cellAt (m : List (List Nat)) (r c : Nat) : Nat := (m.getD r []).getD c 0

/-- `Block::spawn`. -/
def Block.spawn (t : Tetromino) (st : Settings) : Block :=
  { tetromino := t
    rotation := .Default
    x := (st.cols : Int) / 2 - ((t.shape.length : Int) + 1) / 2
    y := -1
    saved_rotation := none
    saved_x := none
    saved_y := none }

/-- `Block::shape`: the kind's base shape transformed by the live rotation. -/
def Block.shape (b : Block) : List (List Nat) :=
  let s := b.tetromino.shape
  let n := s.length
  (List.range n).map fun i => (List.range n).map fun j =>
    match b.rotation with
    | .Default => cellAt s i j
    | .CCW => cellAt s j (n - 1 - i)
    | .Reverse => cellAt s (n - 1 - i) (n - 1 - j)
    | .CW => cellAt s (n - 1 - j) i

/-- `Block::begin`: record the previous placement, then mutate. -/
def Block.begin (b : Block) (x y : Int) (rotation : Rotation) : Block :=
  { b with
    saved_x := some b.x
    saved_y := some b.y
    saved_rotation := some b.rotation
    x := x
    y := y
    rotation := rotation }

/-- `Block::commit`. -/
def Block.commit (b : Block) : Block :=
  { b with saved_x := none, saved_y := none, saved_rotation := none }

/-- `Block::revert`. -/
def Block.revert (b : Block) : Block :=
  let b1 := match b.saved_x with
    | some x => { b with x := x, saved_x := none }
    | none => b
  let b2 := match b1.saved_y with
    | some y => { b1 with y := y, saved_y := none }
    | none => b1
  match b2.saved_rotation with
    | some r => { b2 with rotation := r, saved_rotation := none }
    | none => b2

/-- `Block::end`. -/
def Block.end_ (b : Block) (commit : Bool) : Block :=
  if commit then b.commit else b.revert

/-- The placed-cell matrix (`TetrisField.field`, a `Renderable`). -/
abbrev Field := List (List Nat)

/-- Width of the field, read from row 0 as the source does. -/
def width (f : Field) : Nat := (f.getD 0 []).length

/-- `TetrisField::in_bounds`. -/
def in_bounds (f : Field) (x y : Int) (relaxed : Bool) : Bool :=
  (relaxed || decide (0 ≤ y)) && decide (y < (f.length : Int)) &&
    decide (0 ≤ x) && decide (x < (width f : Int))

/-- `TetrisField::has_collision`: some nonzero shape cell projects onto a
nonzero grid cell. -/
def has_collision (f : Field) (b : Block) : Bool :=
  let s := b.shape
  let n : Int := s.length
  (List.range f.length).any fun j =>
    (List.range (f.getD j []).length).any fun i =>
      let ix : Int := (i : Int) - b.x
      let iy : Int := (j : Int) - b.y
      decide (0 ≤ ix) && decide (ix < n) && decide (0 ≤ iy) && decide (iy < n) &&
        decide (0 < cellAt s iy.toNat ix.toNat) && decide (0 < cellAt f j i)

/-- `TetrisField::has_overflow`: some nonzero shape cell leaves the field
horizontally or at/below the bottom (rows above the top are permitted). -/
def has_overflow (f : Field) (b : Block) : Bool :=
  let s := b.shape
  (List.range s.length).any fun j =>
    (List.range (s.getD j []).length).any fun i =>
      decide (0 < cellAt s j i) && ! in_bounds f (b.x + (i : Int)) (b.y + (j : Int)) true

/-- `TetrisField::try_move`. -/
def try_move (f : Field) (b : Block) (dx dy : Int) : Bool × Block :=
  let b1 := b.begin (b.x + dx) (b.y + dy) b.rotation
  let ok := !has_overflow f b1 && !has_collision f b1
  (ok, b1.end_ ok)

/-- The candidate loop of `TetrisField::try_rotate`. -/
def tryKicks (f : Field) (b : Block) : List (Int × Int) → Option (Bool × Block)
  | [] => some (false, b)
  | (dx, dy) :: rest => do
    let rot ← b.rotation.next b.tetromino.dir
    let b1 := b.begin (b.x + dx) (b.y + dy) rot
    let ok := !has_overflow f b1 && !has_collision f b1
    if ok then some (true, b1.commit) else tryKicks f b1.revert rest

/-- `TetrisField::try_rotate`. -/
def try_rotate (f : Field) (b : Block) : Option (Bool × Block) := do
  let ks ← b.tetromino.wallkick b.rotation
  tryKicks f b ks

/-- Scan of one grid column from the top for the first occupied row
(the inner `for y` loop of `TetrisField::altitude`); `none` marks the
index panic of the original when the column is outside the row. -/
def firstOccAux (c : Nat) : List (List Nat) → Nat → Option (Option Nat)
  | [], _ => some none
  | row :: rest, y =>
    if c < row.length then
      if 0 < row.getD c 0 then some (some y) else firstOccAux c rest (y + 1)
    else none

/-- The `highest` value for one column in `TetrisField::altitude`:
first occupied row of the column, or the row count when empty. -/
def colHighest (f : Field) (c : Int) : Option Int :=
  if 0 ≤ c then
    match firstOccAux c.toNat f 0 with
    | some (some y) => some (y : Int)
    | some none => some (f.length : Int)
    | none => none
  else none

/-- The `lowest` value for shape column `i` in `TetrisField::altitude`:
the last nonzero row of the column, offset by the block's y. -/
def colLowest (s : List (List Nat)) (y : Int) (i : Nat) : Option Int :=
  (List.range s.length).foldl
    (fun acc j => if 0 < cellAt s j i then some ((j : Int) + y) else acc) none

/-- One column's contribution to `TetrisField::altitude`:
`some none` = column has no piece cell (skipped), `some (some g)` = gap
below the column, `none` = index panic. -/
def colGap (f : Field) (b : Block) (i : Nat) : Option (Option Int) :=
  match colLowest b.shape b.y i with
  | none => some none
  | some lowest =>
    match colHighest f (b.x + (i : Int)) with
    | none => none
    | some highest => some (some (highest - lowest - 1))

/-- `TetrisField::altitude`. -/
def altitude (f : Field) (b : Block) : Option Int :=
  (List.range b.shape.length).foldlM
    (fun alt i => (colGap f b i).map fun g =>
      match g with
      | none => alt
      | some g => min alt g)
    (f.length : Int)

/-- `TetrisField::drop`: move down by the computed altitude. -/
def drop (f : Field) (b : Block) : Option (Int × Block) :=
  (altitude f b).map fun alt => (alt, { b with y := b.y + alt })

/-- Write one cell (`field[y][x] = cell`); in-range by construction at
every call site. -/
def writeCell (f : Field) (r c : Nat) (v : Nat) : Field :=
  f.set r ((f.getD r []).set c v)

/-- `TetrisField::field_with_block`: the grid merged with the in-bounds
cells of the active piece. -/
def field_with_block (f : Field) (b : Block) : Field :=
  let s := b.shape
  (List.range s.length).foldl
    (fun acc j =>
      (List.range (s.getD j []).length).foldl
        (fun acc (i : Nat) =>
          let nx := b.x + (i : Int)
          let ny := b.y + (j : Int)
          if decide (0 < cellAt s j i) && in_bounds f nx ny false then
            writeCell acc ny.toNat nx.toNat (cellAt s j i)
          else acc)
        acc)
    f

/-- `row is full` test of `TetrisField::check_filled`
(no cell of the row is zero). -/
def rowFull (row : List Nat) : Bool :=
  (List.range row.length).all fun i => decide (0 < row.getD i 0)

/-- One removal step of `TetrisField::check_filled`: delete the row and
insert an empty row on top; `none` marks the panics of the original
(remove out of range, or width read from an empty field). -/
def clearOne (acc : Field) (l : Nat) : Option Field :=
  if l < acc.length then
    match acc.eraseIdx l with
    | [] => none
    | r :: rest => some (List.replicate r.length 0 :: r :: rest)
  else none

/-- `TetrisField::check_filled`: among the candidate rows, remove each
fully occupied one and insert an empty row at the top; returns the new
field and the number of removed rows. -/
def check_filled (f : Field) (lines : List Nat) : Option (Field × Nat) :=
  if lines.all (fun l => decide (l < f.length)) then
    let dropped := lines.filter fun l => rowFull (f.getD l [])
    (dropped.foldlM clearOne f).map fun f1 => (f1, dropped.length)
  else none

/-- The write phase of `TetrisField::consume`: every in-bounds nonzero
shape cell is written into the grid. -/
def consumeWrites (f : Field) (b : Block) : Field :=
  let s := b.shape
  (List.range s.length).foldl
    (fun acc j =>
      (List.range (s.getD j []).length).foldl
        (fun acc (i : Nat) =>
          let nx := b.x + (i : Int)
          let ny := b.y + (j : Int)
          if decide (0 < cellAt s j i) && in_bounds acc nx ny false then
            writeCell acc ny.toNat nx.toNat (cellAt s j i)
          else acc)
        acc)
    f

/-- Does locking the block write into row `r`? (membership in the
`affected_lines` set of `TetrisField::consume`). -/
def writesRow (f : Field) (b : Block) (r : Nat) : Bool :=
  let s := b.shape
  (List.range s.length).any fun j =>
    (List.range (s.getD j []).length).any fun i =>
      decide (0 < cellAt s j i) && in_bounds f (b.x + (i : Int)) (b.y + (j : Int)) false &&
        decide (b.y + (j : Int) = (r : Int))

/-- `TetrisField::consume`: lock the block, then clear full rows among the
affected ones (the affected set, held in a `HashSet` and then sorted in
the original, is modelled as the ascending list of written rows). -/
def consume (f : Field) (b : Block) : Option (Field × Nat) :=
  let f1 := consumeWrites f b
  let lines := (List.range f1.length).filter fun r => writesRow f1 b r
  check_filled f1 lines

/-- Input actions (`Action` in settings.rs). -/
inductive Action
  | Up | Down | Left | Right | Drop | Escape
deriving DecidableEq

/-- `MenuItem` in settings.rs. -/
structure MenuItem (T : Type) where
  id : T
  string : String
  top : Nat
  selectable : Bool
deriving DecidableEq

/-- `MenuMode` in settings.rs. -/
structure MenuMode (T : Type) where
  items : List (MenuItem T)
  selected : Option Nat
deriving DecidableEq

/-- First index at/after `i` whose item satisfies the indexed predicate
(`Iterator::enumerate().find(...)` / `position` of the original). -/
def findIdxFrom {T : Type} (p : Nat → MenuItem T → Bool) : Nat → List (MenuItem T) → Option Nat
  | _, [] => none
  | i, it :: rest => if p i it then some i else findIdxFrom p (i + 1) rest

/-- Last index at/after `i` whose item satisfies the indexed predicate
(`enumerate().rev().find(...)` / `rposition` of the original). -/
def findIdxRevFrom {T : Type} (p : Nat → MenuItem T → Bool) : Nat → List (MenuItem T) → Option Nat
  | _, [] => none
  | i, it :: rest =>
    match findIdxRevFrom p (i + 1) rest with
    | some j => some j
    | none => if p i it then some i else none

/-- `MenuMode::new`: select the first selectable item, if any. -/
def MenuMode.new {T : Type} (items : List (MenuItem T)) : MenuMode T :=
  { items := items, selected := findIdxFrom (fun _ it => it.selectable) 0 items }

/-- `MenuMode::down`. -/
def MenuMode.down {T : Type} (m : MenuMode T) : MenuMode T :=
  match m.selected with
  | none => m
  | some selected =>
    let next := findIdxFrom (fun i it => decide (selected < i) && it.selectable) 0 m.items
    { m with selected :=
        match next with
        | some i => some i
        | none => findIdxFrom (fun _ it => it.selectable) 0 m.items }

/-- `MenuMode::up`. -/
def MenuMode.up {T : Type} (m : MenuMode T) : MenuMode T :=
  match m.selected with
  | none => m
  | some selected =>
    let next := findIdxRevFrom (fun i it => decide (i < selected) && it.selectable) 0 m.items
    { m with selected :=
        match next with
        | some i => some i
        | none => findIdxRevFrom (fun _ it => it.selectable) 0 m.items }

/-- `MenuMode::select`; `none` when nothing is selected.  The selected
index is in range for every menu built and mutated by this module, so the
out-of-range read of the original cannot fire; an out-of-range index
yields `none` here. -/
def MenuMode.select {T : Type} (m : MenuMode T) : Option T :=
  match m.selected with
  | none => none
  | some idx => (m.items.get? idx).map MenuItem.id

/-- Identities of the pause/game-over menu entries (`TetrisPause`). -/
inductive TetrisPause
  | Title | Continue | Restart | Exit
deriving DecidableEq

/-- `Tetris::pause_menu`. -/
def pause_menu : MenuMode TetrisPause :=
  MenuMode.new
    [ { id := .Title, string := "Menu", top := 1, selectable := false }
    , { id := .Continue, string := "Continue", top := 3, selectable := true }
    , { id := .Restart, string := "New Game", top := 5, selectable := true }
    , { id := .Exit, string := "Exit", top := 7, selectable := true } ]

/-- `Tetris::over_menu`. -/
def over_menu : MenuMode TetrisPause :=
  MenuMode.new
    [ { id := .Title, string := "You Died", top := 1, selectable := false }
    , { id := .Restart, string := "New Game", top := 3, selectable := true }
    , { id := .Exit, string := "Exit", top := 5, selectable := true } ]

/-- `GameState` in mod.rs, including the `Temp` placeholder installed by
`mem::take`. -/
inductive GameState
  | Start
  | Fall (block : Block) (next : Tetromino)
  | Drop (block : Block) (next : Tetromino)
  | GameOver
  | Temp
deriving DecidableEq

/-- The whole machine (`Tetris` in mod.rs).  `moment` is the timestamp of
the last gravity tick; `rng` counts bag refills and indexes the shuffle
oracle. -/
structure TetrisState where
  settings : Settings
  moment : Nat
  field : Field
  state : GameState
  pause : Option (MenuMode TetrisPause)
  score : Nat
  bag : List Tetromino
  rng : Nat
deriving DecidableEq

/-- `BAG_SIZE`. -/
def BAG_SIZE : Nat := 3

/-- The unshuffled refill: `BAG_SIZE` copies of the full 7-kind set, in
the append order of `Tetris::random_block`. -/
def baseBag : List Tetromino :=
  (List.replicate BAG_SIZE ([.I, .T, .J, .L, .S, .Z, .O] : List Tetromino)).flatten

/-- The shuffle performed by `thread_rng` is ambient state of the
original; it is modelled as an explicit oracle giving the (shuffled)
content of the n-th refill. -/
abbrev Oracle := Nat → List Tetromino

/-- `Tetris::random_block`: refill and shuffle when empty, then pop the
last entry; `none` is the `unwrap` panic on an empty refill. -/
def random_block (o : Oracle) (s : TetrisState) : Option (Tetromino × TetrisState) :=
  let s := if s.bag.isEmpty then { s with bag := o s.rng, rng := s.rng + 1 } else s
  match s.bag.getLast? with
  | none => none
  | some t => some (t, { s with bag := s.bag.dropLast })

/-- `GameMode` in settings.rs: one rendered game snapshot. -/
structure GameMode where
  main : Field
  preview : Field
  score : Nat
deriving DecidableEq

/-- `Tetromino::preview`: the base shape padded/truncated to a 4×4 box. -/
def resizeTo {A : Type} (pad : A) (n : Nat) (v : List A) : List A :=
  (v ++ List.replicate (n - v.length) pad).take n

/-- `Tetromino::preview`. -/
def Tetromino.preview (t : Tetromino) : Field :=
  let v := t.shape.map fun row => resizeTo 0 4 (if row.length < 3 then 0 :: row else row)
  resizeTo [0, 0, 0, 0] 4 (if v.length < 4 then [0, 0, 0, 0] :: v else v)

/-- `GameChange` in settings.rs, instantiated at `TetrisPause`. -/
inductive GameChange
  | Draw (g : GameMode)
  | Text (menu : MenuMode TetrisPause)
  | Restart
  | Exit
  | Idle
deriving DecidableEq

/-- `Tetris::to_drawable`; `none` is the unreachable `Temp` arm. -/
def to_drawable (s : TetrisState) : Option GameMode :=
  match s.state with
  | .Fall b next => some { main := field_with_block s.field b, preview := next.preview, score := s.score }
  | .Drop b next => some { main := field_with_block s.field b, preview := next.preview, score := s.score }
  | .Start => some { main := s.field, preview := [[]], score := s.score }
  | .GameOver => some { main := s.field, preview := [[]], score := s.score }
  | .Temp => none

/-- The final rendering match of `Tetris::frame`. -/
def render (s : TetrisState) : Option (GameChange × TetrisState) :=
  match s.pause with
  | some menu => some (.Text menu, s)
  | none => (to_drawable s).map fun g => (.Draw g, s)

/-- `Tetris::run_cicle`: draw the preview kind, then either game over on
spawn collision or enter `Fall`. -/
def run_cicle (o : Oracle) (block : Block) (s : TetrisState) : Option TetrisState := do
  let (next, s) ← random_block o s
  if has_collision s.field block then
    some { s with state := .GameOver }
  else
    some { s with state := .Fall block next }

/-- `Tetris::state_start`. -/
def state_start (o : Oracle) (s : TetrisState) : Option TetrisState := do
  let (t, s) ← random_block o s
  run_cicle o (Block.spawn t s.settings) s

/-- The input-handling match of `Tetris::state_fall`; returns
(drop flag, changed flag, block, gravity timestamp). -/
def fall_action (f : Field) (now : Nat) (action : Option Action) (block : Block)
    (moment : Nat) : Option (Bool × Bool × Block × Nat) :=
  match action with
  | some .Left =>
    let (ch, b) := try_move f block (-1) 0
    some (false, ch, b, moment)
  | some .Right =>
    let (ch, b) := try_move f block 1 0
    some (false, ch, b, moment)
  | some .Down =>
    let (ch, b) := try_move f block 0 1
    if ch then some (false, true, b, now) else some (true, false, b, now)
  | some .Drop =>
    (drop f block).map fun (alt, b) => (true, decide (0 < alt), b, moment)
  | some .Up =>
    (try_rotate f block).map fun (ch, b) => (false, ch, b, moment)
  | _ => some (false, false, block, moment)

/-- The gravity step of `Tetris::state_fall`. -/
def fall_gravity (f : Field) (st : Settings) (now : Nat) (dropFlag changed : Bool)
    (block : Block) (moment : Nat) : Bool × Bool × Block × Nat :=
  if st.delay ≤ now - moment then
    let (ok, b) := try_move f block 0 1
    if ok then (dropFlag, true, b, now) else (true, changed, b, now)
  else (dropFlag, changed, block, moment)

/-- `Tetris::state_fall`: apply the input, then gravity; a failed
downward move turns the state into `Drop`.  Returns whether anything
visibly changed. -/
def state_fall (now : Nat) (action : Option Action) (s : TetrisState) :
    Option (Bool × TetrisState) :=
  match s.state with
  | .Fall block next => do
    let (d1, c1, b1, m1) ← fall_action s.field now action block s.moment
    let (d2, c2, b2, m2) := fall_gravity s.field s.settings now d1 c1 b1 m1
    some (c2, { s with moment := m2
                       state := if d2 then GameState.Drop b2 next else GameState.Fall b2 next })
  | _ => some (false, s)

/-- `Tetris::state_drop`: lock the piece, clear lines, add the triangular
score, then respawn from the preview kind.  As in the original, a call in
any other state leaves the `Temp` placeholder installed by `mem::take`. -/
def state_drop (o : Oracle) (s : TetrisState) : Option TetrisState :=
  match s.state with
  | .Drop prev current => do
    let (f1, lines) ← consume s.field prev
    let s := { s with state := GameState.Temp, field := f1
                      score := s.score + lines * (lines + 1) / 2 }
    run_cicle o (Block.spawn current s.settings) s
  | _ => some { s with state := .Temp }

/-- `Tetris::frame`: one tick of the machine. -/
def frame (o : Oracle) (now : Nat) (action : Option Action) (s : TetrisState) :
    Option (GameChange × TetrisState) :=
  match s.pause with
  | none =>
    if action = some Action.Escape then
      render { s with pause := some pause_menu }
    else
      match s.state with
      | .Start => (state_start o s).bind render
      | .Fall _ _ =>
        (state_fall now action s).bind fun (changed, s1) =>
          if changed then render s1 else some (.Idle, s1)
      | .Drop _ _ => (state_drop o s).bind render
      | .GameOver => render { s with pause := some over_menu }
      | .Temp => none
  | some menu =>
    match action with
    | some .Escape => render { s with pause := none }
    | some .Up => render { s with pause := some menu.up }
    | some .Down => render { s with pause := some menu.down }
    | some .Drop =>
      match menu.select with
      | some .Continue => render { s with pause := none }
      | some .Restart => some (.Restart, s)
      | some .Exit => some (.Exit, s)
      | _ => none
    | _ => some (.Idle, s)

/-- `Tetris::new` behind `TetrisField::new`'s size assertions. -/
def mkTetris (st : Settings) (start : Nat) : Option TetrisState :=
  if 4 ≤ st.rows ∧ 4 ≤ st.cols then
    some { settings := st
           moment := start
           field := List.replicate st.rows (List.replicate st.cols 0)
           state := .Start
           pause := none
           score := 0
           bag := []
           rng := 0 }
  else none

/-- Feed a fixed (timestamp, action) sequence through `frame`, collecting
the outputs and the final state. -/
def runTrace (o : Oracle) (s : TetrisState) :
    List (Nat × Option Action) → Option (List GameChange × TetrisState)
  | [] => some ([], s)
  | (t, a) :: rest => do
    let (out, s1) ← frame o t a s
    let (outs, sf) ← runTrace o s1 rest
    some (out :: outs, sf)

/-! ### Helper predicates and example states used by the theorems -/

/-- Acceptance test for one wall-kick candidate: the kicked position with
the advanced rotation has neither overflow nor collision. -/
def kickAccept (f : Field) (t : Tetromino) (rot : Rotation) (x y : Int) (k : Int × Int) : Bool :=
  !has_overflow f ⟨t, rot, x + k.1, y + k.2, none, none, none⟩ &&
    !has_collision f ⟨t, rot, x + k.1, y + k.2, none, none, none⟩

/-- The rotation states a kind's arity admits: `O` only `Default`;
`I`, `S`, `Z` only `Default`/`CCW`; full-rotation kinds all four. -/
def rotAdmissible (t : Tetromino) (r : Rotation) : Bool :=
  match t.dir, r with
  | .None, .Default => true
  | .None, _ => false
  | .Half, .Default => true
  | .Half, .CCW => true
  | .Half, _ => false
  | .Full, _ => true

/-- Blocks reachable in the game: spawned with rotation `Default` and
mutated only through `try_move` and `try_rotate` (against any field). -/
inductive ReachableBlock : Block → Prop
  | spawn (t : Tetromino) (st : Settings) : ReachableBlock (Block.spawn t st)
  | move (f : Field) (b : Block) (dx dy : Int) :
      ReachableBlock b → ReachableBlock (try_move f b dx dy).2
  | rotate (f : Field) (b : Block) (r : Bool × Block) :
      ReachableBlock b → try_rotate f b = some r → ReachableBlock r.2

/-- Is the item at index `k` present and selectable? -/
def selectableAt {T : Type} (items : List (MenuItem T)) (k : Nat) : Bool :=
  match items.get? k with
  | some it => it.selectable
  | none => false

/-- No item of the list is selectable. -/
def noSelectable {T : Type} (items : List (MenuItem T)) : Prop :=
  ∀ it ∈ items, it.selectable = false

/-- The selection invariant: `none` only when nothing is selectable,
otherwise the index of a selectable item. -/
def MenuInv {T : Type} (m : MenuMode T) : Prop :=
  (m.selected = none → noSelectable m.items) ∧
    ∀ i, m.selected = some i → selectableAt m.items i = true

/-- A machine in `Start` whose next spawn collides: row 0 is fully
occupied, and the I piece spawns into row 0. -/
def c8state : TetrisState :=
  { settings := ⟨4, 4, 500⟩
    moment := 0
    field := [[1,1,1,1],[0,0,0,0],[0,0,0,0],[0,0,0,0]]
    state := .Start
    pause := none
    score := 0
    bag := [.I, .I]
    rng := 0 }

/-- A machine about to process a `Drop`: the O piece completes row 3. -/
def c5state : TetrisState :=
  { settings := ⟨4, 4, 500⟩
    moment := 0
    field := [[0,0,0,0],[0,0,0,0],[0,0,0,0],[1,1,0,0]]
    state := .Drop ⟨.O, .Default, 2, 2, none, none, none⟩ .I
    pause := none
    score := 0
    bag := [.T]
    rng := 0 }

/-- Every row of the field has width `w`. -/
def rectangular (w : Nat) (f : Field) : Prop := ∀ row ∈ f, row.length = w

/-- Shift a set of row indices up across one leading row: drop index 0,
decrement the rest (spec-side helper). -/
def shed (ds : List Nat) : List Nat :=
  (ds.filter fun d => decide (0 < d)).map fun d => d - 1

/-- Modelled from the spec: `removes each such row` — the field with the
rows at the given indices removed. -/
def keepRows : Field → List Nat → Field
  | [], _ => []
  | r :: rs, ds => if 0 ∈ ds then keepRows rs (shed ds) else r :: keepRows rs (shed ds)

/-- A grid whose rows 0 and 3 are fully occupied. -/
def c4field : Field := [[1,1,1,1],[0,0,0,0],[0,0,0,0],[2,2,2,2]]

/-- `g` has the same row count and row widths as `f`. -/
def sameDims (f g : Field) : Prop :=
  g.length = f.length ∧ ∀ j, (g.getD j []).length = (f.getD j []).length

/-- An empty 4×4 field and an O block placed at the origin. -/
def c3field : Field := [[0,0,0,0],[0,0,0,0],[0,0,0,0],[0,0,0,0]]

/-- The block used by the C3 examples. -/
def c3block : Block := ⟨.O, .Default, 0, 0, none, none, none⟩

/-- The empty 4×4 field used by the C2 examples. -/
def c2field : Field := [[0,0,0,0],[0,0,0,0],[0,0,0,0],[0,0,0,0]]

/-- An O block floating far above the field. -/
def c2block : Block := ⟨.O, .Default, 0, -6, none, none, none⟩

/-! ### Basic congruence helpers -/

theorem has_overflow_eq_of (f : Field) (b b' : Block) (h1 : b.tetromino = b'.tetromino)
    (h2 : b.rotation = b'.rotation) (h3 : b.x = b'.x) (h4 : b.y = b'.y) :
    has_overflow f b = has_overflow f b' := by
  cases b; cases b'
  cases h1; cases h2; cases h3; cases h4
  rfl

theorem has_collision_eq_of (f : Field) (b b' : Block) (h1 : b.tetromino = b'.tetromino)
    (h2 : b.rotation = b'.rotation) (h3 : b.x = b'.x) (h4 : b.y = b'.y) :
    has_collision f b = has_collision f b' := by
  cases b; cases b'
  cases h1; cases h2; cases h3; cases h4
  rfl

/-! ### C6: try_move -/

/-- C6: `try_move` returns true and permanently applies the offset exactly
when the offset position has neither overflow nor collision; otherwise it
returns false and restores the position; rotation is unchanged either way. -/
theorem C6_try_move_spec (f : Field) (b : Block) (dx dy : Int) :
    ((try_move f b dx dy).1 = true ↔
      (has_overflow f { b with x := b.x + dx, y := b.y + dy } = false ∧
       has_collision f { b with x := b.x + dx, y := b.y + dy } = false)) ∧
    (try_move f b dx dy).2.x = (if (try_move f b dx dy).1 then b.x + dx else b.x) ∧
    (try_move f b dx dy).2.y = (if (try_move f b dx dy).1 then b.y + dy else b.y) ∧
    (try_move f b dx dy).2.rotation = b.rotation := by
  have hov : has_overflow f (b.begin (b.x + dx) (b.y + dy) b.rotation)
      = has_overflow f { b with x := b.x + dx, y := b.y + dy } :=
    has_overflow_eq_of _ _ _ rfl rfl rfl rfl
  have hco : has_collision f (b.begin (b.x + dx) (b.y + dy) b.rotation)
      = has_collision f { b with x := b.x + dx, y := b.y + dy } :=
    has_collision_eq_of _ _ _ rfl rfl rfl rfl
  simp only [try_move, hov, hco]
  cases h1 : has_overflow f { b with x := b.x + dx, y := b.y + dy } <;>
    cases h2 : has_collision f { b with x := b.x + dx, y := b.y + dy } <;>
      simp [Block.end_, Block.commit, Block.revert, Block.begin]

/-! ### C7: try_rotate -/

theorem wallkick_head (t : Tetromino) (r : Rotation) (ks : List (Int × Int))
    (h : t.wallkick r = some ks) : ks.head? = some (0, 0) := by
  cases t <;> cases r <;> simp only [Tetromino.wallkick] at h <;> cases h <;> rfl

theorem tryKicks_spec (f : Field) (rot : Rotation) :
    ∀ (ks : List (Int × Int)) (b : Block),
      b.rotation.next b.tetromino.dir = some rot →
      ∃ r, tryKicks f b ks = some r ∧
        (∀ k, ks.find? (kickAccept f b.tetromino rot b.x b.y) = some k →
          r = (true, ⟨b.tetromino, rot, b.x + k.1, b.y + k.2, none, none, none⟩)) ∧
        (ks.find? (kickAccept f b.tetromino rot b.x b.y) = none →
          r.1 = false ∧ r.2.x = b.x ∧ r.2.y = b.y ∧ r.2.rotation = b.rotation) := by
  intro ks
  induction ks with
  | nil =>
    intro b _
    exact ⟨(false, b), rfl, by simp [List.find?], by simp [List.find?]⟩
  | cons k rest ih =>
    intro b hnext
    obtain ⟨dx, dy⟩ := k
    have hb1c : (b.begin (b.x + dx) (b.y + dy) rot).commit
        = (⟨b.tetromino, rot, b.x + dx, b.y + dy, none, none, none⟩ : Block) := rfl
    have hb1r : (b.begin (b.x + dx) (b.y + dy) rot).revert
        = (⟨b.tetromino, b.rotation, b.x, b.y, none, none, none⟩ : Block) := rfl
    have hacc : (!has_overflow f (b.begin (b.x + dx) (b.y + dy) rot) &&
        !has_collision f (b.begin (b.x + dx) (b.y + dy) rot))
        = kickAccept f b.tetromino rot b.x b.y (dx, dy) := by
      unfold kickAccept
      rw [has_overflow_eq_of f (b.begin (b.x + dx) (b.y + dy) rot)
            ⟨b.tetromino, rot, b.x + dx, b.y + dy, none, none, none⟩ rfl rfl rfl rfl,
          has_collision_eq_of f (b.begin (b.x + dx) (b.y + dy) rot)
            ⟨b.tetromino, rot, b.x + dx, b.y + dy, none, none, none⟩ rfl rfl rfl rfl]
    by_cases hok : kickAccept f b.tetromino rot b.x b.y (dx, dy) = true
    · refine ⟨(true, ⟨b.tetromino, rot, b.x + dx, b.y + dy, none, none, none⟩), ?_, ?_, ?_⟩
      · simp only [tryKicks, hnext, Option.bind_eq_bind, Option.some_bind, hacc, hok,
          if_true, hb1c]
      · intro k hk
        rw [List.find?_cons, hok] at hk
        simp only [Option.some.injEq] at hk
        subst hk
        rfl
      · intro hnone
        rw [List.find?_cons, hok] at hnone
        simp at hnone
    · have hok' : kickAccept f b.tetromino rot b.x b.y (dx, dy) = false := by
        simpa using hok
      have hnext' : (⟨b.tetromino, b.rotation, b.x, b.y, none, none, none⟩ : Block).rotation.next
          (⟨b.tetromino, b.rotation, b.x, b.y, none, none, none⟩ : Block).tetromino.dir = some rot := hnext
      obtain ⟨r, hr, hsome, hnone⟩ := ih ⟨b.tetromino, b.rotation, b.x, b.y, none, none, none⟩ hnext'
      refine ⟨r, ?_, ?_, ?_⟩
      · simp only [tryKicks, hnext, Option.bind_eq_bind, Option.some_bind, hacc, hok',
          Bool.false_eq_true, if_false, hb1r]
        exact hr
      · intro k hk
        rw [List.find?_cons, hok'] at hk
        exact hsome k hk
      · intro hn
        rw [List.find?_cons, hok'] at hn
        exact hnone hn

/-- C7: `try_rotate` tries the kind's kick table for the current rotation
state in order, each candidate applied together with the advanced
rotation; the first candidate with neither overflow nor collision is
committed with result true; if none succeeds the position and rotation
are unchanged and the result is false.  Every kick table starts with
(0,0). -/
theorem C7_try_rotate_spec (f : Field) (b : Block) (ks : List (Int × Int)) (rot : Rotation)
    (hks : b.tetromino.wallkick b.rotation = some ks)
    (hrot : b.rotation.next b.tetromino.dir = some rot) :
    ks.head? = some (0, 0) ∧
    ∃ r, try_rotate f b = some r ∧
      (∀ k, ks.find? (kickAccept f b.tetromino rot b.x b.y) = some k →
        r = (true, ⟨b.tetromino, rot, b.x + k.1, b.y + k.2, none, none, none⟩)) ∧
      (ks.find? (kickAccept f b.tetromino rot b.x b.y) = none →
        r.1 = false ∧ r.2.x = b.x ∧ r.2.y = b.y ∧ r.2.rotation = b.rotation) := by
  refine ⟨wallkick_head _ _ _ hks, ?_⟩
  obtain ⟨r, hr, hsome, hnone⟩ := tryKicks_spec f rot ks b hrot
  exact ⟨r, by simp only [try_rotate, hks, Option.bind_eq_bind, Option.some_bind]; exact hr,
    hsome, hnone⟩

/-! ### C9: reachable rotation states -/

theorem try_move_proj (f : Field) (b : Block) (dx dy : Int) :
    (try_move f b dx dy).2.tetromino = b.tetromino ∧
      (try_move f b dx dy).2.rotation = b.rotation := by
  simp only [try_move]
  cases (!has_overflow f (b.begin (b.x + dx) (b.y + dy) b.rotation) &&
      !has_collision f (b.begin (b.x + dx) (b.y + dy) b.rotation)) <;>
    simp [Block.end_, Block.begin, Block.commit, Block.revert]

theorem tryKicks_proj (f : Field) :
    ∀ (ks : List (Int × Int)) (b : Block) (r : Bool × Block),
      tryKicks f b ks = some r →
      r.2.tetromino = b.tetromino ∧
        (r.2.rotation = b.rotation ∨ b.rotation.next b.tetromino.dir = some r.2.rotation) := by
  intro ks
  induction ks with
  | nil =>
    intro b r h
    simp only [tryKicks, Option.some.injEq] at h
    subst h
    exact ⟨rfl, Or.inl rfl⟩
  | cons k rest ih =>
    intro b r h
    obtain ⟨dx, dy⟩ := k
    simp only [tryKicks, Option.bind_eq_bind] at h
    cases hnext : b.rotation.next b.tetromino.dir with
    | none => rw [hnext] at h; cases h
    | some rot =>
      rw [hnext] at h
      simp only [Option.some_bind] at h
      by_cases hok : (!has_overflow f (b.begin (b.x + dx) (b.y + dy) rot) &&
          !has_collision f (b.begin (b.x + dx) (b.y + dy) rot)) = true
      · rw [if_pos hok] at h
        simp only [Option.some.injEq] at h
        subst h
        exact ⟨rfl, Or.inr rfl⟩
      · rw [if_neg hok] at h
        have := ih (b.begin (b.x + dx) (b.y + dy) rot).revert r h
        have hrev : (b.begin (b.x + dx) (b.y + dy) rot).revert
            = (⟨b.tetromino, b.rotation, b.x, b.y, none, none, none⟩ : Block) := rfl
        rw [hrev] at this
        rcases this with ⟨ha, hb2 | hb2⟩
        · exact ⟨ha, Or.inl hb2⟩
        · refine ⟨ha, Or.inr ?_⟩
          rw [← hnext]
          exact hb2

theorem rotAdmissible_next (t : Tetromino) (r r' : Rotation)
    (h1 : rotAdmissible t r = true) (h2 : r.next t.dir = some r') :
    rotAdmissible t r' = true := by
  cases t <;> cases r <;> simp_all [rotAdmissible, Rotation.next, Tetromino.dir] <;>
    subst h2 <;> rfl

theorem rotAdmissible_total (t : Tetromino) (r : Rotation) (h : rotAdmissible t r = true) :
    (t.wallkick r).isSome = true ∧ (r.next t.dir).isSome = true := by
  cases t <;> cases r <;>
    simp_all [rotAdmissible, Rotation.next, Tetromino.dir, Tetromino.wallkick]

/-- C9: every reachable block's rotation state is within its kind's
rotation arity (O stays `Default`; I, S, Z stay `Default`/`CCW`), and on
such blocks the `unreachable!()` arms of `Tetromino::wallkick` and
`Rotation::next` cannot fire (both return a value). -/
theorem C9_reachable_rotation (b : Block) (h : ReachableBlock b) :
    rotAdmissible b.tetromino b.rotation = true ∧
      (b.tetromino.wallkick b.rotation).isSome = true ∧
      (b.rotation.next b.tetromino.dir).isSome = true := by
  have hadm : rotAdmissible b.tetromino b.rotation = true := by
    induction h with
    | spawn t st => cases t <;> rfl
    | move f b dx dy hb ih =>
      obtain ⟨h1, h2⟩ := try_move_proj f b dx dy
      rw [h1, h2]
      exact ih
    | rotate f b r hb hr ih =>
      have hks : ∃ ks, b.tetromino.wallkick b.rotation = some ks := by
        cases hww : b.tetromino.wallkick b.rotation with
        | none =>
          simp only [try_rotate, hww, Option.bind_eq_bind, Option.none_bind] at hr
          cases hr
        | some ks => exact ⟨ks, rfl⟩
      obtain ⟨ks, hks⟩ := hks
      have htk : tryKicks f b ks = some r := by
        simpa only [try_rotate, hks, Option.bind_eq_bind, Option.some_bind] using hr
      obtain ⟨h1, h2⟩ := tryKicks_proj f ks b r htk
      rw [h1]
      cases h2 with
      | inl he => rw [he]; exact ih
      | inr hn => exact rotAdmissible_next _ _ _ ih hn
  exact ⟨hadm, rotAdmissible_total _ _ hadm⟩

/-- C9 witness: a freshly spawned I piece is reachable and satisfies the
arity invariant. -/
theorem C9_witness :
    rotAdmissible (Block.spawn .I ⟨10, 20, 500⟩).tetromino (Block.spawn .I ⟨10, 20, 500⟩).rotation = true ∧
      ((Block.spawn .I ⟨10, 20, 500⟩).tetromino.wallkick (Block.spawn .I ⟨10, 20, 500⟩).rotation).isSome = true ∧
      ((Block.spawn .I ⟨10, 20, 500⟩).rotation.next (Block.spawn .I ⟨10, 20, 500⟩).tetromino.dir).isSome = true :=
  C9_reachable_rotation _ (ReachableBlock.spawn .I ⟨10, 20, 500⟩)

/-! ### C10: menu selection -/

theorem findIdxFrom_some {T : Type} (p : Nat → MenuItem T → Bool) :
    ∀ (l : List (MenuItem T)) (i j : Nat), findIdxFrom p i l = some j →
      i ≤ j ∧ (∃ it, l.get? (j - i) = some it ∧ p j it = true) ∧
        ∀ k it', i ≤ k → k < j → l.get? (k - i) = some it' → p k it' = false := by
  intro l
  induction l with
  | nil => intro i j h; cases h
  | cons it rest ih =>
    intro i j h
    by_cases hp : p i it = true
    · simp only [findIdxFrom, hp, if_true, Option.some.injEq] at h
      subst h
      refine ⟨le_refl i, ⟨it, by simp, hp⟩, ?_⟩
      intro k it' hk1 hk2 _
      omega
    · have hp' : p i it = false := by simpa using hp
      simp only [findIdxFrom, hp', Bool.false_eq_true, if_false] at h
      obtain ⟨h1, ⟨it2, h2, h3⟩, h4⟩ := ih (i + 1) j h
      refine ⟨by omega, ⟨it2, ?_, h3⟩, ?_⟩
      · have : j - i = (j - (i + 1)) + 1 := by omega
        rw [this]
        simpa using h2
      · intro k it' hk1 hk2 hget
        rcases Nat.eq_or_lt_of_le hk1 with heq | hlt
        · subst heq
          simp only [Nat.sub_self, List.get?] at hget
          injection hget with hget
          subst hget
          exact hp'
        · have hki : k - i = (k - (i + 1)) + 1 := by omega
          rw [hki] at hget
          simp only [List.get?] at hget
          exact h4 k it' (by omega) hk2 hget

theorem findIdxFrom_none {T : Type} (p : Nat → MenuItem T → Bool) :
    ∀ (l : List (MenuItem T)) (i : Nat), findIdxFrom p i l = none →
      ∀ k it, l.get? k = some it → p (i + k) it = false := by
  intro l
  induction l with
  | nil => intro i _ k it hget; cases hget
  | cons it0 rest ih =>
    intro i h k it hget
    by_cases hp : p i it0 = true
    · simp [findIdxFrom, hp] at h
    · have hp' : p i it0 = false := by simpa using hp
      simp only [findIdxFrom, hp', Bool.false_eq_true, if_false] at h
      cases k with
      | zero =>
        simp only [List.get?] at hget
        injection hget with hget
        subst hget
        simpa using hp'
      | succ k =>
        simp only [List.get?] at hget
        have := ih (i + 1) h k it hget
        simpa [Nat.add_assoc, Nat.add_comm 1 k] using this

theorem findIdxRevFrom_none_aux {T : Type} (p : Nat → MenuItem T → Bool) :
    ∀ (l : List (MenuItem T)) (i : Nat), findIdxRevFrom p i l = none →
      ∀ k it, l.get? k = some it → p (i + k) it = false := by
  intro l
  induction l with
  | nil => intro i _ k it hget; cases hget
  | cons it0 rest ih =>
    intro i h k it hget
    simp only [findIdxRevFrom] at h
    cases hrec : findIdxRevFrom p (i + 1) rest with
    | some j2 => rw [hrec] at h; cases h
    | none =>
      rw [hrec] at h
      by_cases hp : p i it0 = true
      · rw [if_pos hp] at h; cases h
      · have hp' : p i it0 = false := by simpa using hp
        cases k with
        | zero =>
          simp only [List.get?] at hget
          injection hget with hget
          subst hget
          simpa using hp'
        | succ k =>
          simp only [List.get?] at hget
          have := ih (i + 1) hrec k it hget
          simpa [Nat.add_assoc, Nat.add_comm 1 k] using this

theorem findIdxRevFrom_some {T : Type} (p : Nat → MenuItem T → Bool) :
    ∀ (l : List (MenuItem T)) (i j : Nat), findIdxRevFrom p i l = some j →
      i ≤ j ∧ (∃ it, l.get? (j - i) = some it ∧ p j it = true) ∧
        ∀ k it', j < k → l.get? (k - i) = some it' → p k it' = false := by
  intro l
  induction l with
  | nil => intro i j h; cases h
  | cons it rest ih =>
    intro i j h
    simp only [findIdxRevFrom] at h
    cases hrec : findIdxRevFrom p (i + 1) rest with
    | some j2 =>
      rw [hrec] at h
      injection h with hj
      rw [← hj]
      obtain ⟨h1, ⟨it2, h2, h3⟩, h4⟩ := ih (i + 1) j2 hrec
      refine ⟨by omega, ⟨it2, ?_, h3⟩, ?_⟩
      · have hji : j2 - i = (j2 - (i + 1)) + 1 := by omega
        rw [hji]
        simpa using h2
      · intro k it' hk hget
        have hki : k - i = (k - (i + 1)) + 1 := by omega
        rw [hki] at hget
        simp only [List.get?] at hget
        exact h4 k it' hk hget
    | none =>
      rw [hrec] at h
      by_cases hp : p i it = true
      · rw [if_pos hp] at h
        injection h with hj
        rw [← hj]
        refine ⟨le_refl i, ⟨it, by simp, hp⟩, ?_⟩
        intro k it' hk hget
        have hki : k - i = (k - (i + 1)) + 1 := by omega
        rw [hki] at hget
        simp only [List.get?] at hget
        have := findIdxRevFrom_none_aux p rest (i + 1) hrec (k - (i + 1)) it' hget
        simpa [show i + 1 + (k - (i + 1)) = k by omega] using this
      · rw [if_neg hp] at h
        cases h

theorem selectableAt_iff {T : Type} (items : List (MenuItem T)) (k : Nat) :
    selectableAt items k = true ↔ ∃ it, items.get? k = some it ∧ it.selectable = true := by
  unfold selectableAt
  cases hg : items.get? k with
  | none => simp
  | some it => simp [hg]

theorem menu_new_inv {T : Type} (items : List (MenuItem T)) : MenuInv (MenuMode.new items) := by
  constructor
  · intro hnone it hmem
    have hfind : findIdxFrom (fun _ it => it.selectable) 0 items = none := hnone
    obtain ⟨k, hk⟩ := List.mem_iff_get?.mp hmem
    simpa using findIdxFrom_none _ items 0 hfind k it hk
  · intro i hi
    have hfind : findIdxFrom (fun _ it => it.selectable) 0 items = some i := hi
    obtain ⟨_, ⟨it, hget, hp⟩, _⟩ := findIdxFrom_some _ items 0 i hfind
    simp only [Nat.sub_zero] at hget
    exact (selectableAt_iff items i).mpr ⟨it, hget, hp⟩

theorem menu_down_none {T : Type} (m : MenuMode T) (h : m.selected = none) : m.down = m := by
  unfold MenuMode.down
  rw [h]

theorem menu_up_none {T : Type} (m : MenuMode T) (h : m.selected = none) : m.up = m := by
  unfold MenuMode.up
  rw [h]

theorem menu_down_char {T : Type} (m : MenuMode T) (sel : Nat) (hsel : m.selected = some sel)
    (hs : selectableAt m.items sel = true) :
    (∃ j, m.down.selected = some j ∧ sel < j ∧ selectableAt m.items j = true ∧
        ∀ k, sel < k → k < j → selectableAt m.items k = false) ∨
      ((∀ k, sel < k → selectableAt m.items k = false) ∧
        ∃ j, m.down.selected = some j ∧ selectableAt m.items j = true ∧
          ∀ k, k < j → selectableAt m.items k = false) := by
  have hdown : m.down = { m with selected :=
      (match findIdxFrom (fun i it => decide (sel < i) && it.selectable) 0 m.items with
       | some i => some i
       | none => findIdxFrom (fun _ it => it.selectable) 0 m.items) } := by
    unfold MenuMode.down
    rw [hsel]
  cases hfind : findIdxFrom (fun i it => decide (sel < i) && it.selectable) 0 m.items with
  | some j =>
    left
    obtain ⟨_, ⟨it, hget, hp⟩, hmin⟩ := findIdxFrom_some _ m.items 0 j hfind
    simp only [Nat.sub_zero] at hget
    rw [Bool.and_eq_true, decide_eq_true_eq] at hp
    refine ⟨j, by rw [hdown]; simp [hfind], hp.1,
      (selectableAt_iff m.items j).mpr ⟨it, hget, hp.2⟩, ?_⟩
    intro k hk1 hk2
    unfold selectableAt
    cases hg : m.items.get? k with
    | none => rfl
    | some it' =>
      have := hmin k it' (Nat.zero_le k) hk2 (by simpa using hg)
      simpa [hk1] using this
  | none =>
    right
    constructor
    · intro k hk
      unfold selectableAt
      cases hg : m.items.get? k with
      | none => rfl
      | some it' =>
        have := findIdxFrom_none _ m.items 0 hfind k it' (by simpa using hg)
        simpa [hk] using this
    · cases hfb : findIdxFrom (fun _ it => it.selectable) 0 m.items with
      | none =>
        exfalso
        obtain ⟨it, hget, hsl⟩ := (selectableAt_iff m.items sel).mp hs
        have := findIdxFrom_none _ m.items 0 hfb sel it hget
        simp only [Nat.zero_add] at this
        rw [hsl] at this
        cases this
      | some j =>
        obtain ⟨_, ⟨it, hget, hp⟩, hmin⟩ := findIdxFrom_some _ m.items 0 j hfb
        simp only [Nat.sub_zero] at hget
        refine ⟨j, by rw [hdown]; simp [hfind, hfb],
          (selectableAt_iff m.items j).mpr ⟨it, hget, hp⟩, ?_⟩
        intro k hk
        unfold selectableAt
        cases hg : m.items.get? k with
        | none => rfl
        | some it' =>
          simpa using hmin k it' (Nat.zero_le k) hk (by simpa using hg)

theorem menu_up_char {T : Type} (m : MenuMode T) (sel : Nat) (hsel : m.selected = some sel)
    (hs : selectableAt m.items sel = true) :
    (∃ j, m.up.selected = some j ∧ j < sel ∧ selectableAt m.items j = true ∧
        ∀ k, j < k → k < sel → selectableAt m.items k = false) ∨
      ((∀ k, k < sel → selectableAt m.items k = false) ∧
        ∃ j, m.up.selected = some j ∧ selectableAt m.items j = true ∧
          ∀ k, j < k → selectableAt m.items k = false) := by
  have hup : m.up = { m with selected :=
      (match findIdxRevFrom (fun i it => decide (i < sel) && it.selectable) 0 m.items with
       | some i => some i
       | none => findIdxRevFrom (fun _ it => it.selectable) 0 m.items) } := by
    unfold MenuMode.up
    rw [hsel]
  cases hfind : findIdxRevFrom (fun i it => decide (i < sel) && it.selectable) 0 m.items with
  | some j =>
    left
    obtain ⟨_, ⟨it, hget, hp⟩, hmax⟩ := findIdxRevFrom_some _ m.items 0 j hfind
    simp only [Nat.sub_zero] at hget
    rw [Bool.and_eq_true, decide_eq_true_eq] at hp
    refine ⟨j, by rw [hup]; simp [hfind], hp.1,
      (selectableAt_iff m.items j).mpr ⟨it, hget, hp.2⟩, ?_⟩
    intro k hk1 hk2
    unfold selectableAt
    cases hg : m.items.get? k with
    | none => rfl
    | some it' =>
      have := hmax k it' hk1 (by simpa using hg)
      simpa [hk2] using this
  | none =>
    right
    constructor
    · intro k hk
      unfold selectableAt
      cases hg : m.items.get? k with
      | none => rfl
      | some it' =>
        have := findIdxRevFrom_none_aux _ m.items 0 hfind k it' (by simpa using hg)
        simpa [hk] using this
    · cases hfb : findIdxRevFrom (fun _ it => it.selectable) 0 m.items with
      | none =>
        exfalso
        obtain ⟨it, hget, hsl⟩ := (selectableAt_iff m.items sel).mp hs
        have := findIdxRevFrom_none_aux _ m.items 0 hfb sel it hget
        simp only [Nat.zero_add] at this
        rw [hsl] at this
        cases this
      | some j =>
        obtain ⟨_, ⟨it, hget, hp⟩, hmax⟩ := findIdxRevFrom_some _ m.items 0 j hfb
        simp only [Nat.sub_zero] at hget
        refine ⟨j, by rw [hup]; simp [hfind, hfb],
          (selectableAt_iff m.items j).mpr ⟨it, hget, hp⟩, ?_⟩
        intro k hk
        unfold selectableAt
        cases hg : m.items.get? k with
        | none => rfl
        | some it' =>
          simpa using hmax k it' hk (by simpa using hg)

/-- C10: the selection invariant (selected is `none` exactly when no item
is selectable, otherwise the index of a selectable item) holds at
construction and is preserved by `up` and `down`; `down`/`up` move the
selection to the next/previous selectable item in list order, wrapping to
the first/last selectable item past the boundary, and are no-ops when no
item is selectable. -/
theorem C10_menu_spec {T : Type} (items : List (MenuItem T)) (m : MenuMode T) (h : MenuInv m) :
    MenuInv (MenuMode.new items) ∧
    MenuInv m.down ∧ MenuInv m.up ∧
    (noSelectable m.items → m.down = m ∧ m.up = m) ∧
    (∀ sel, m.selected = some sel →
      ((∃ j, m.down.selected = some j ∧ sel < j ∧ selectableAt m.items j = true ∧
          ∀ k, sel < k → k < j → selectableAt m.items k = false) ∨
        ((∀ k, sel < k → selectableAt m.items k = false) ∧
          ∃ j, m.down.selected = some j ∧ selectableAt m.items j = true ∧
            ∀ k, k < j → selectableAt m.items k = false)) ∧
      ((∃ j, m.up.selected = some j ∧ j < sel ∧ selectableAt m.items j = true ∧
          ∀ k, j < k → k < sel → selectableAt m.items k = false) ∨
        ((∀ k, k < sel → selectableAt m.items k = false) ∧
          ∃ j, m.up.selected = some j ∧ selectableAt m.items j = true ∧
            ∀ k, j < k → selectableAt m.items k = false))) := by
  have hdownitems : m.down.items = m.items := by
    unfold MenuMode.down
    cases hsel : m.selected <;> simp
  have hupitems : m.up.items = m.items := by
    unfold MenuMode.up
    cases hsel : m.selected <;> simp
  refine ⟨menu_new_inv items, ?_, ?_, ?_, ?_⟩
  · -- MenuInv m.down
    cases hsel : m.selected with
    | none => rw [menu_down_none m hsel]; exact h
    | some sel =>
      have hs : selectableAt m.items sel = true := h.2 sel hsel
      have hj2 : ∃ j, m.down.selected = some j ∧ selectableAt m.items j = true := by
        rcases menu_down_char m sel hsel hs with ⟨j, hj, _, hsj, _⟩ | ⟨_, j, hj, hsj, _⟩
        · exact ⟨j, hj, hsj⟩
        · exact ⟨j, hj, hsj⟩
      obtain ⟨j, hj, hsj⟩ := hj2
      refine ⟨fun hn => ?_, fun i hi => ?_⟩
      · rw [hj] at hn
        cases hn
      · rw [hj] at hi
        injection hi with hi
        subst hi
        rw [hdownitems]
        exact hsj
  · -- MenuInv m.up
    cases hsel : m.selected with
    | none => rw [menu_up_none m hsel]; exact h
    | some sel =>
      have hs : selectableAt m.items sel = true := h.2 sel hsel
      have hj2 : ∃ j, m.up.selected = some j ∧ selectableAt m.items j = true := by
        rcases menu_up_char m sel hsel hs with ⟨j, hj, _, hsj, _⟩ | ⟨_, j, hj, hsj, _⟩
        · exact ⟨j, hj, hsj⟩
        · exact ⟨j, hj, hsj⟩
      obtain ⟨j, hj, hsj⟩ := hj2
      refine ⟨fun hn => ?_, fun i hi => ?_⟩
      · rw [hj] at hn
        cases hn
      · rw [hj] at hi
        injection hi with hi
        subst hi
        rw [hupitems]
        exact hsj
  · -- no-op when nothing is selectable
    intro hno
    cases hsel : m.selected with
    | none => exact ⟨menu_down_none m hsel, menu_up_none m hsel⟩
    | some sel =>
      exfalso
      have hs : selectableAt m.items sel = true := h.2 sel hsel
      obtain ⟨it, hget, hsl⟩ := (selectableAt_iff m.items sel).mp hs
      have : it.selectable = false := hno it (List.get?_mem hget)
      rw [hsl] at this
      cases this
  · intro sel hsel
    have hs : selectableAt m.items sel = true := h.2 sel hsel
    exact ⟨menu_down_char m sel hsel hs, menu_up_char m sel hsel hs⟩

/-- C10 witness: the pause menu satisfies the invariant, and the theorem
applies to it. -/
theorem C10_witness :
    MenuInv (MenuMode.new pause_menu.items) ∧
    MenuInv pause_menu.down ∧ MenuInv pause_menu.up ∧
    (noSelectable pause_menu.items → pause_menu.down = pause_menu ∧ pause_menu.up = pause_menu) ∧
    (∀ sel, pause_menu.selected = some sel →
      ((∃ j, pause_menu.down.selected = some j ∧ sel < j ∧ selectableAt pause_menu.items j = true ∧
          ∀ k, sel < k → k < j → selectableAt pause_menu.items k = false) ∨
        ((∀ k, sel < k → selectableAt pause_menu.items k = false) ∧
          ∃ j, pause_menu.down.selected = some j ∧ selectableAt pause_menu.items j = true ∧
            ∀ k, k < j → selectableAt pause_menu.items k = false)) ∧
      ((∃ j, pause_menu.up.selected = some j ∧ j < sel ∧ selectableAt pause_menu.items j = true ∧
          ∀ k, j < k → k < sel → selectableAt pause_menu.items k = false) ∨
        ((∀ k, k < sel → selectableAt pause_menu.items k = false) ∧
          ∃ j, pause_menu.up.selected = some j ∧ selectableAt pause_menu.items j = true ∧
            ∀ k, j < k → selectableAt pause_menu.items k = false))) :=
  C10_menu_spec pause_menu.items pause_menu
    ⟨fun hn => (by cases hn), fun i hi => (by injection hi with hi; subst hi; rfl)⟩

/-- C7 witness: a T piece on an empty 4×4 field, rotating in place. -/
theorem C7_witness :
    ([((0 : Int), (0 : Int)), (-1, 0), (-1, 1), (0, -2), (-1, -2)].head? = some (0, 0)) ∧
    ∃ r, try_rotate (List.replicate 4 (List.replicate 4 0))
        ⟨.T, .Default, 0, 0, none, none, none⟩ = some r ∧
      (∀ k, ([((0 : Int), (0 : Int)), (-1, 0), (-1, 1), (0, -2), (-1, -2)].find?
          (kickAccept (List.replicate 4 (List.replicate 4 0)) .T .CW 0 0)) = some k →
        r = (true, ⟨.T, .CW, 0 + k.1, 0 + k.2, none, none, none⟩)) ∧
      (([((0 : Int), (0 : Int)), (-1, 0), (-1, 1), (0, -2), (-1, -2)].find?
          (kickAccept (List.replicate 4 (List.replicate 4 0)) .T .CW 0 0)) = none →
        r.1 = false ∧ r.2.x = 0 ∧ r.2.y = 0 ∧ r.2.rotation = .Default) :=
  C7_try_rotate_spec (List.replicate 4 (List.replicate 4 0))
    ⟨.T, .Default, 0, 0, none, none, none⟩ _ .CW rfl rfl

/-! ### C5: scoring on Drop -/

theorem random_block_eff (o : Oracle) (s : TetrisState) (t : Tetromino) (s' : TetrisState)
    (h : random_block o s = some (t, s')) :
    s'.score = s.score ∧ s'.field = s.field ∧ s'.state = s.state ∧ s'.pause = s.pause ∧
      s'.settings = s.settings ∧ s'.moment = s.moment := by
  simp only [random_block] at h
  by_cases he : s.bag.isEmpty
  · rw [if_pos he] at h
    cases hg : ({ s with bag := o s.rng, rng := s.rng + 1 } : TetrisState).bag.getLast? with
    | none => rw [hg] at h; cases h
    | some t0 =>
      rw [hg] at h
      injection h with h
      injection h with h1 h2
      subst h2
      exact ⟨rfl, rfl, rfl, rfl, rfl, rfl⟩
  · rw [if_neg he] at h
    cases hg : s.bag.getLast? with
    | none => rw [hg] at h; cases h
    | some t0 =>
      rw [hg] at h
      injection h with h
      injection h with h1 h2
      subst h2
      exact ⟨rfl, rfl, rfl, rfl, rfl, rfl⟩

theorem run_cicle_eff (o : Oracle) (b : Block) (s : TetrisState) (s' : TetrisState)
    (h : run_cicle o b s = some s') :
    s'.score = s.score ∧ s'.field = s.field ∧ s'.pause = s.pause ∧ s'.settings = s.settings := by
  simp only [run_cicle, Option.bind_eq_bind] at h
  cases hr : random_block o s with
  | none => rw [hr] at h; cases h
  | some p =>
    obtain ⟨t, s1⟩ := p
    rw [hr] at h
    simp only [Option.some_bind] at h
    obtain ⟨h1, h2, _, h4, h5, _⟩ := random_block_eff o s t s1 hr
    by_cases hc : has_collision s1.field b = true
    · rw [if_pos hc] at h
      injection h with h
      subst h
      exact ⟨h1, h2, h4, h5⟩
    · rw [if_neg hc] at h
      injection h with h
      subst h
      exact ⟨h1, h2, h4, h5⟩

/-- C5: processing the `Drop` state adds exactly lines*(lines+1)/2 to the
score, where lines is the number of rows cleared by the lock; clearing
1/2/3/4 rows adds 1/3/6/10 points, and the score never decreases. -/
theorem C5_drop_score (o : Oracle) (s : TetrisState) (prev : Block) (current : Tetromino)
    (s' : TetrisState) (hstate : s.state = .Drop prev current)
    (h : state_drop o s = some s') :
    ∃ f1 lines, consume s.field prev = some (f1, lines) ∧
      s'.score = s.score + lines * (lines + 1) / 2 ∧
      s.score ≤ s'.score ∧
      (lines = 1 → s'.score = s.score + 1) ∧
      (lines = 2 → s'.score = s.score + 3) ∧
      (lines = 3 → s'.score = s.score + 6) ∧
      (lines = 4 → s'.score = s.score + 10) := by
  unfold state_drop at h
  rw [hstate] at h
  simp only [Option.bind_eq_bind] at h
  cases hc : consume s.field prev with
  | none => rw [hc] at h; cases h
  | some p =>
    obtain ⟨f1, lines⟩ := p
    rw [hc] at h
    simp only [Option.some_bind] at h
    have hsc : s'.score = s.score + lines * (lines + 1) / 2 := (run_cicle_eff o _ _ _ h).1
    refine ⟨f1, lines, rfl, hsc, ?_, ?_, ?_, ?_, ?_⟩
    · rw [hsc]
      exact Nat.le_add_right _ _
    · intro hl
      rw [hsc, hl]
    · intro hl
      rw [hsc, hl]
    · intro hl
      rw [hsc, hl]
    · intro hl
      rw [hsc, hl]

/-! ### C8: spawn collision leads to GameOver -/

theorem getLast?_of_length (l : List Tetromino) (h : 1 ≤ l.length) :
    ∃ t, l.getLast? = some t := by
  cases hl : l.getLast? with
  | none =>
    rw [List.getLast?_eq_none_iff] at hl
    subst hl
    simp at h
  | some t => exact ⟨t, rfl⟩

theorem random_block_of_nonempty (o : Oracle) (s : TetrisState) (t : Tetromino)
    (hbag : 1 ≤ s.bag.length) (hlast : s.bag.getLast? = some t) :
    random_block o s = some (t, { s with bag := s.bag.dropLast }) := by
  have he : s.bag.isEmpty = false := by
    cases hb : s.bag with
    | nil => rw [hb] at hbag; simp at hbag
    | cons a rest => rfl
  simp only [random_block, he, Bool.false_eq_true, if_false, hlast]

/-- C8 (amended): with no menu overlay active and the machine in `Start`,
if the piece about to spawn (the last bag entry) collides with the grid,
the next `frame` call moves the state to `GameOver` for every input
action other than `Escape`. -/
theorem C8_spawn_collision_gameover (o : Oracle) (now : Nat) (action : Option Action)
    (s : TetrisState) (t : Tetromino)
    (hp : s.pause = none) (hst : s.state = .Start) (hesc : action ≠ some .Escape)
    (hbag : 2 ≤ s.bag.length) (hlast : s.bag.getLast? = some t)
    (hcol : has_collision s.field (Block.spawn t s.settings) = true) :
    ∃ out s', frame o now action s = some (out, s') ∧ s'.state = .GameOver := by
  have hrb1 : random_block o s = some (t, { s with bag := s.bag.dropLast }) :=
    random_block_of_nonempty o s t (by omega) hlast
  have hlen1 : s.bag.dropLast.length = s.bag.length - 1 := by simp
  obtain ⟨t2, ht2⟩ := getLast?_of_length s.bag.dropLast (by rw [hlen1]; omega)
  have hrb2 : random_block o { s with bag := s.bag.dropLast }
      = some (t2, { s with bag := s.bag.dropLast.dropLast }) :=
    random_block_of_nonempty o _ t2 (by show 1 ≤ s.bag.dropLast.length; rw [hlen1]; omega) ht2
  have hss : state_start o s = some { s with bag := s.bag.dropLast.dropLast
                                             state := .GameOver } := by
    simp only [state_start, Option.bind_eq_bind, hrb1, Option.some_bind, run_cicle, hrb2,
      hcol, if_true]
  refine ⟨.Draw { main := s.field, preview := [[]], score := s.score },
    { s with bag := s.bag.dropLast.dropLast, state := .GameOver }, ?_, rfl⟩
  simp only [frame, hp, if_neg hesc, hst, hss, Option.bind_eq_bind, Option.some_bind, render,
    to_drawable, Option.map_eq_map]
  rfl

/-- C8 counterexample: the machine is in `Start` and the freshly spawned
piece would collide, yet supplying `Escape` opens the pause menu and
leaves the state at `Start` instead of `GameOver` — the transition is not
independent of the input. -/
theorem C8_counterexample :
    c8state.pause = none ∧ c8state.state = .Start ∧ 2 ≤ c8state.bag.length ∧
    c8state.bag.getLast? = some .I ∧
    has_collision c8state.field (Block.spawn .I c8state.settings) = true ∧
    (frame (fun _ => []) 0 (some .Escape) c8state).map (fun p => p.2.state) = some .Start := by
  decide

/-- C8 witness: same machine, no input: the frame goes to `GameOver`. -/
theorem C8_witness :
    ∃ out s', frame (fun _ => []) 0 none c8state = some (out, s') ∧ s'.state = .GameOver :=
  C8_spawn_collision_gameover (fun _ => []) 0 none c8state .I rfl rfl (by decide)
    (by decide) rfl (by decide)

/-- C5 witness: locking the O piece clears one row and adds 1 point. -/
theorem C5_witness :
    ∃ s', state_drop (fun _ => []) c5state = some s' ∧
      ∃ f1 lines, consume c5state.field ⟨.O, .Default, 2, 2, none, none, none⟩ = some (f1, lines) ∧
        s'.score = c5state.score + lines * (lines + 1) / 2 ∧
        c5state.score ≤ s'.score ∧
        (lines = 1 → s'.score = c5state.score + 1) ∧
        (lines = 2 → s'.score = c5state.score + 3) ∧
        (lines = 3 → s'.score = c5state.score + 6) ∧
        (lines = 4 → s'.score = c5state.score + 10) := by
  cases hsd : state_drop (fun _ => []) c5state with
  | none => exact absurd hsd (by decide)
  | some s' =>
    exact ⟨s', rfl, C5_drop_score (fun _ => []) c5state ⟨.O, .Default, 2, 2, none, none, none⟩
      .I s' rfl hsd⟩

/-! ### C1: determinism and the RNG oracle -/

theorem render_state (s : TetrisState) (out : GameChange) (s' : TetrisState)
    (h : render s = some (out, s')) : s' = s := by
  unfold render at h
  cases hp : s.pause with
  | some menu =>
    rw [hp] at h
    injection h with h
    injection h with h1 h2
    exact h2.symm ▸ rfl
  | none =>
    rw [hp] at h
    cases hd : to_drawable s with
    | none => rw [hd] at h; cases h
    | some g =>
      rw [hd] at h
      injection h with h
      injection h with h1 h2
      exact h2.symm ▸ rfl

theorem state_fall_bag (now : Nat) (a : Option Action) (s : TetrisState) (c : Bool)
    (s' : TetrisState) (h : state_fall now a s = some (c, s')) : s'.bag = s.bag := by
  unfold state_fall at h
  cases hst : s.state with
  | Fall b next =>
    rw [hst] at h
    simp only [Option.bind_eq_bind] at h
    cases hfa : fall_action s.field now a b s.moment with
    | none => rw [hfa] at h; cases h
    | some q =>
      obtain ⟨d1, c1, b1, m1⟩ := q
      rw [hfa] at h
      simp only [Option.some_bind] at h
      injection h with h
      injection h with h1 h2
      rw [← h2]
  | Start => rw [hst] at h; injection h with h; injection h with h1 h2; rw [← h2]
  | Drop b next => rw [hst] at h; injection h with h; injection h with h1 h2; rw [← h2]
  | GameOver => rw [hst] at h; injection h with h; injection h with h1 h2; rw [← h2]
  | Temp => rw [hst] at h; injection h with h; injection h with h1 h2; rw [← h2]

theorem run_cicle_indep (o1 o2 : Oracle) (b : Block) (s : TetrisState)
    (h : 1 ≤ s.bag.length) :
    run_cicle o1 b s = run_cicle o2 b s ∧
      ∀ s', run_cicle o1 b s = some s' → s'.bag.length + 1 = s.bag.length := by
  obtain ⟨t, ht⟩ := getLast?_of_length s.bag h
  have h1 := random_block_of_nonempty o1 s t h ht
  have h2 := random_block_of_nonempty o2 s t h ht
  constructor
  · simp only [run_cicle, Option.bind_eq_bind, h1, h2]
  · intro s' hs'
    simp only [run_cicle, Option.bind_eq_bind, h1, Option.some_bind] at hs'
    have hlen : s.bag.dropLast.length + 1 = s.bag.length := by
      simp only [List.length_dropLast]
      omega
    by_cases hc : has_collision ({ s with bag := s.bag.dropLast } : TetrisState).field b = true
    · rw [if_pos hc] at hs'
      injection hs' with hs'
      rw [← hs']
      exact hlen
    · rw [if_neg hc] at hs'
      injection hs' with hs'
      rw [← hs']
      exact hlen

theorem state_start_indep (o1 o2 : Oracle) (s : TetrisState) (h : 2 ≤ s.bag.length) :
    state_start o1 s = state_start o2 s ∧
      ∀ s', state_start o1 s = some s' → s'.bag.length + 2 = s.bag.length := by
  obtain ⟨t, ht⟩ := getLast?_of_length s.bag (by omega)
  have hrb1 := random_block_of_nonempty o1 s t (by omega) ht
  have hrb2 := random_block_of_nonempty o2 s t (by omega) ht
  have hlen : ({ s with bag := s.bag.dropLast } : TetrisState).bag.length + 1 = s.bag.length := by
    show s.bag.dropLast.length + 1 = s.bag.length
    simp only [List.length_dropLast]
    omega
  have hone : 1 ≤ ({ s with bag := s.bag.dropLast } : TetrisState).bag.length := by omega
  obtain ⟨heq, hbound⟩ := run_cicle_indep o1 o2
    (Block.spawn t ({ s with bag := s.bag.dropLast } : TetrisState).settings)
    { s with bag := s.bag.dropLast } hone
  constructor
  · simp only [state_start, Option.bind_eq_bind, hrb1, hrb2, Option.some_bind]
    exact heq
  · intro s' hs'
    simp only [state_start, Option.bind_eq_bind, hrb1, Option.some_bind] at hs'
    have := hbound s' hs'
    omega

theorem state_drop_indep (o1 o2 : Oracle) (s : TetrisState) (h : 1 ≤ s.bag.length) :
    state_drop o1 s = state_drop o2 s ∧
      ∀ s', state_drop o1 s = some s' → s.bag.length ≤ s'.bag.length + 1 := by
  cases hst : s.state with
  | Drop prev current =>
    cases hc : consume s.field prev with
    | none =>
      constructor
      · simp only [state_drop, hst, Option.bind_eq_bind, hc, Option.none_bind]
      · intro s' hs'
        simp only [state_drop, hst, Option.bind_eq_bind, hc, Option.none_bind] at hs'
        cases hs'
    | some p =>
      obtain ⟨f1, lines⟩ := p
      obtain ⟨heq, hbound⟩ := run_cicle_indep o1 o2
        (Block.spawn current s.settings)
        { s with state := GameState.Temp, field := f1, score := s.score + lines * (lines + 1) / 2 }
        (by show 1 ≤ s.bag.length; omega)
      constructor
      · simp only [state_drop, hst, Option.bind_eq_bind, hc, Option.some_bind]
        exact heq
      · intro s' hs'
        simp only [state_drop, hst, Option.bind_eq_bind, hc, Option.some_bind] at hs'
        have := hbound s' hs'
        have hb : ({ s with state := GameState.Temp
                            field := f1
                            score := s.score + lines * (lines + 1) / 2 } : TetrisState).bag.length
            = s.bag.length := rfl
        omega
  | Start =>
    refine ⟨by simp only [state_drop, hst], ?_⟩
    intro s' hs'
    simp only [state_drop, hst, Option.some.injEq] at hs'
    rw [← hs']
    show s.bag.length ≤ s.bag.length + 1
    omega
  | Fall b next =>
    refine ⟨by simp only [state_drop, hst], ?_⟩
    intro s' hs'
    simp only [state_drop, hst, Option.some.injEq] at hs'
    rw [← hs']
    show s.bag.length ≤ s.bag.length + 1
    omega
  | GameOver =>
    refine ⟨by simp only [state_drop, hst], ?_⟩
    intro s' hs'
    simp only [state_drop, hst, Option.some.injEq] at hs'
    rw [← hs']
    show s.bag.length ≤ s.bag.length + 1
    omega
  | Temp =>
    refine ⟨by simp only [state_drop, hst], ?_⟩
    intro s' hs'
    simp only [state_drop, hst, Option.some.injEq] at hs'
    rw [← hs']
    show s.bag.length ≤ s.bag.length + 1
    omega

theorem frame_indep (o1 o2 : Oracle) (now : Nat) (a : Option Action) (s : TetrisState)
    (h : 2 ≤ s.bag.length) :
    frame o1 now a s = frame o2 now a s ∧
      ∀ out s', frame o1 now a s = some (out, s') → s.bag.length ≤ s'.bag.length + 2 := by
  cases hp : s.pause with
  | some menu =>
    refine ⟨by simp only [frame, hp], ?_⟩
    intro out s' hs'
    simp only [frame, hp] at hs'
    have hback : s'.bag = s.bag → s.bag.length ≤ s'.bag.length + 2 := by
      intro hb
      rw [hb]
      omega
    cases a with
    | none =>
      injection hs' with hs'
      injection hs' with h1 h2
      exact hback (by rw [← h2])
    | some act =>
      cases act with
      | Escape => exact hback (by rw [render_state _ _ _ hs'])
      | Up => exact hback (by rw [render_state _ _ _ hs'])
      | Down => exact hback (by rw [render_state _ _ _ hs'])
      | Left =>
        injection hs' with hs'
        injection hs' with h1 h2
        exact hback (by rw [← h2])
      | Right =>
        injection hs' with hs'
        injection hs' with h1 h2
        exact hback (by rw [← h2])
      | Drop =>
        cases hsel : menu.select with
        | none => rw [hsel] at hs'; cases hs'
        | some item =>
          rw [hsel] at hs'
          cases item with
          | Title => cases hs'
          | Continue => exact hback (by rw [render_state _ _ _ hs'])
          | Restart =>
            injection hs' with hs'
            injection hs' with h1 h2
            exact hback (by rw [← h2])
          | Exit =>
            injection hs' with hs'
            injection hs' with h1 h2
            exact hback (by rw [← h2])
  | none =>
    by_cases hesc : a = some Action.Escape
    · subst hesc
      refine ⟨by simp only [frame, hp, if_true], ?_⟩
      intro out s' hs'
      simp only [frame, hp, if_true] at hs'
      rw [render_state _ _ _ hs']
      show s.bag.length ≤ s.bag.length + 2
      omega
    · cases hst : s.state with
      | Start =>
        obtain ⟨heq, hbound⟩ := state_start_indep o1 o2 s h
        refine ⟨by simp only [frame, hp, if_neg hesc, hst, heq], ?_⟩
        intro out s' hs'
        simp only [frame, hp, if_neg hesc, hst, Option.bind_eq_bind] at hs'
        cases hss : state_start o1 s with
        | none => rw [hss] at hs'; cases hs'
        | some s1 =>
          rw [hss] at hs'
          simp only [Option.some_bind] at hs'
          have hs1 := hbound s1 hss
          rw [render_state _ _ _ hs']
          omega
      | Fall b next =>
        refine ⟨by simp only [frame, hp, if_neg hesc, hst], ?_⟩
        intro out s' hs'
        simp only [frame, hp, if_neg hesc, hst, Option.bind_eq_bind] at hs'
        cases hsf : state_fall now a s with
        | none => rw [hsf] at hs'; cases hs'
        | some p =>
          obtain ⟨c, s1⟩ := p
          rw [hsf] at hs'
          simp only [Option.some_bind] at hs'
          have hbag := state_fall_bag now a s c s1 hsf
          cases c with
          | true =>
            simp only [if_true] at hs'
            rw [render_state _ _ _ hs', hbag]
            omega
          | false =>
            simp only [Bool.false_eq_true, if_false] at hs'
            injection hs' with hs'
            injection hs' with h1 h2
            rw [← h2, hbag]
            omega
      | Drop b next =>
        obtain ⟨heq, hbound⟩ := state_drop_indep o1 o2 s (by omega)
        refine ⟨by simp only [frame, hp, if_neg hesc, hst, heq], ?_⟩
        intro out s' hs'
        simp only [frame, hp, if_neg hesc, hst, Option.bind_eq_bind] at hs'
        cases hss : state_drop o1 s with
        | none => rw [hss] at hs'; cases hs'
        | some s1 =>
          rw [hss] at hs'
          simp only [Option.some_bind] at hs'
          have hs1 := hbound s1 hss
          rw [render_state _ _ _ hs']
          omega
      | GameOver =>
        refine ⟨by simp only [frame, hp, if_neg hesc, hst], ?_⟩
        intro out s' hs'
        simp only [frame, hp, if_neg hesc, hst] at hs'
        rw [render_state _ _ _ hs']
        show s.bag.length ≤ s.bag.length + 2
        omega
      | Temp =>
        refine ⟨by simp only [frame, hp, if_neg hesc, hst], ?_⟩
        intro out s' hs'
        simp only [frame, hp, if_neg hesc, hst] at hs'
        cases hs'

/-- C1 (amended): the core is deterministic in timestamps, actions, and
the bag shuffles; the RNG oracle is the only ambient input.  While the
bag holds at least two pieces per frame the oracle is never consulted:
two runs with different oracles over the same input sequence coincide. -/
theorem C1_determinism (o1 o2 : Oracle) (s : TetrisState)
    (inputs : List (Nat × Option Action)) (h : 2 * inputs.length ≤ s.bag.length) :
    runTrace o1 s inputs = runTrace o2 s inputs := by
  induction inputs generalizing s with
  | nil => rfl
  | cons p rest ih =>
    obtain ⟨t, a⟩ := p
    have h2 : 2 ≤ s.bag.length := by
      simp only [List.length_cons] at h
      omega
    obtain ⟨heq, hbound⟩ := frame_indep o1 o2 t a s h2
    simp only [runTrace, Option.bind_eq_bind, heq]
    cases hf : frame o2 t a s with
    | none => rfl
    | some q =>
      obtain ⟨out, s1⟩ := q
      simp only [Option.some_bind]
      have hlen : s.bag.length ≤ s1.bag.length + 2 := by
        apply hbound out s1
        rw [heq]
        exact hf
      have : 2 * rest.length ≤ s1.bag.length := by
        simp only [List.length_cons] at h
        omega
      rw [ih s1 this]

/-- C1 counterexample: two freshly constructed machines with the same
settings and start instant, fed the identical one-tick input sequence,
produce different outputs and final states when the ambient RNG shuffles
the refill differently (both refills being permutations of the same
bag): the core is not deterministic in the timestamp+action inputs
alone. -/
theorem C1_counterexample :
    (baseBag.reverse.Perm baseBag) ∧
    ((mkTetris ⟨4, 4, 500⟩ 0).bind fun s0 => runTrace (fun _ => baseBag) s0 [(0, none)]) ≠
      ((mkTetris ⟨4, 4, 500⟩ 0).bind fun s0 => runTrace (fun _ => baseBag.reverse) s0 [(0, none)]) := by
  constructor
  · decide
  · decide

/-- C1 witness: with two pieces in the bag, a one-tick run is oracle
independent. -/
theorem C1_witness :
    runTrace (fun _ => baseBag) c8state [(0, none)]
      = runTrace (fun _ => baseBag.reverse) c8state [(0, none)] :=
  C1_determinism (fun _ => baseBag) (fun _ => baseBag.reverse) c8state [(0, none)] (by decide)

/-! ### C4: clearing full rows -/

theorem shed_mem (ds : List Nat) (e : Nat) : e ∈ shed ds ↔ e + 1 ∈ ds := by
  unfold shed
  rw [List.mem_map]
  constructor
  · rintro ⟨x, hx, rfl⟩
    rw [List.mem_filter] at hx
    have h0 : 0 < x := by simpa using hx.2
    have : x - 1 + 1 = x := by omega
    rw [this]
    exact hx.1
  · intro h
    exact ⟨e + 1, List.mem_filter.mpr ⟨h, by simp⟩, by simp⟩

theorem shed_pairwise (ds : List Nat) (h : List.Pairwise (· < ·) ds) :
    List.Pairwise (· < ·) (shed ds) := by
  unfold shed
  rw [List.pairwise_map]
  refine List.Pairwise.imp_of_mem ?_ (h.filter _)
  intro a b ha hb hab
  rw [List.mem_filter] at ha hb
  have hb0 : 0 < b := by simpa using hb.2
  have ha0 : 0 < a := by simpa using ha.2
  show a - 1 < b - 1
  omega

theorem keepRows_nil : ∀ f : Field, keepRows f [] = f := by
  intro f
  induction f with
  | nil => rfl
  | cons r rs ih =>
    unfold keepRows
    rw [if_neg (by simp)]
    rw [show shed [] = [] from rfl, ih]

theorem keepRows_eraseIdx :
    ∀ (f : Field) (d : Nat) (rest : List Nat), (∀ e ∈ rest, d < e) →
      keepRows (f.eraseIdx d) (shed rest) = keepRows f (d :: rest) := by
  intro f
  induction f with
  | nil => intro d rest _; simp [List.eraseIdx, keepRows]
  | cons r rs ih =>
    intro d rest hrest
    cases d with
    | zero =>
      have h0 : (0 : Nat) ∈ 0 :: rest := by simp
      rw [show (r :: rs).eraseIdx 0 = rs from rfl]
      have hk : keepRows (r :: rs) (0 :: rest) = keepRows rs (shed (0 :: rest)) := by
        rw [keepRows, if_pos h0]
      rw [hk]
      have : shed (0 :: rest) = shed rest := by
        unfold shed
        simp
      rw [this]
    | succ d' =>
      rw [show (r :: rs).eraseIdx (d' + 1) = r :: rs.eraseIdx d' from rfl]
      have hz1 : (0 : Nat) ∉ shed rest := by
        rw [shed_mem]
        intro hc
        have := hrest 1 hc
        omega
      have hz2 : (0 : Nat) ∉ (d' + 1) :: rest := by
        simp only [List.mem_cons]
        rintro (hc | hc)
        · cases hc
        · have := hrest 0 hc
          omega
      show keepRows (r :: rs.eraseIdx d') (shed rest) = keepRows (r :: rs) ((d' + 1) :: rest)
      rw [keepRows, if_neg hz1, keepRows, if_neg hz2]
      have hshed : shed ((d' + 1) :: rest) = d' :: shed rest := by
        unfold shed
        simp only [List.filter_cons, decide_eq_true_eq]
        rw [if_pos (by omega)]
        simp
      rw [hshed]
      have hstep := ih d' (shed rest) ?_
      · rw [hstep]
      · intro e he
        rw [shed_mem] at he
        have := hrest (e + 1) he
        omega

theorem keepRows_single : ∀ (f : Field) (K : Nat), keepRows f [K] = f.eraseIdx K := by
  intro f
  induction f with
  | nil => intro K; simp [keepRows, List.eraseIdx]
  | cons r rs ih =>
    intro K
    cases K with
    | zero =>
      show keepRows (r :: rs) [0] = rs
      unfold keepRows
      rw [if_pos (by simp)]
      rw [show shed [0] = [] from rfl, keepRows_nil]
    | succ K' =>
      show keepRows (r :: rs) [K' + 1] = r :: rs.eraseIdx K'
      unfold keepRows
      rw [if_neg (by simp)]
      have : shed [K' + 1] = [K'] := by
        unfold shed
        simp
      rw [this, ih K']

theorem keepRows_mem : ∀ (f : Field) (ds : List Nat) (row : List Nat),
    row ∈ keepRows f ds → row ∈ f := by
  intro f
  induction f with
  | nil => intro ds row h; simp [keepRows] at h
  | cons r rs ih =>
    intro ds row h
    unfold keepRows at h
    by_cases h0 : (0 : Nat) ∈ ds
    · rw [if_pos h0] at h
      exact List.mem_cons_of_mem r (ih _ _ h)
    · rw [if_neg h0] at h
      rcases List.mem_cons.mp h with h | h
      · rw [h]; exact List.mem_cons_self r rs
      · exact List.mem_cons_of_mem r (ih _ _ h)

theorem clearOne_eq (acc : Field) (l w : Nat) (hl : l < acc.length) (h2 : 2 ≤ acc.length)
    (hr : rectangular w acc) :
    clearOne acc l = some (List.replicate w 0 :: acc.eraseIdx l) := by
  unfold clearOne
  rw [if_pos hl]
  cases he : acc.eraseIdx l with
  | nil =>
    exfalso
    have hlen := congrArg List.length he
    rw [List.length_eraseIdx] at hlen
    simp only [if_pos hl, List.length_nil] at hlen
    omega
  | cons r rest =>
    have hmem : r ∈ acc := (List.eraseIdx_sublist acc l).mem (by rw [he]; exact List.mem_cons_self r rest)
    have hrw : r.length = w := hr r hmem
    show some (List.replicate r.length 0 :: r :: rest) = some (List.replicate w 0 :: r :: rest)
    rw [hrw]

theorem clear_fold (w : Nat) :
    ∀ (ds : List Nat) (f : Field), List.Pairwise (· < ·) ds → (∀ d ∈ ds, d < f.length) →
      2 ≤ f.length → rectangular w f →
      ds.foldlM clearOne f
        = some (List.replicate ds.length (List.replicate w 0) ++ keepRows f ds) := by
  intro ds
  induction ds with
  | nil =>
    intro f _ _ _ _
    rw [keepRows_nil]
    rfl
  | cons d rest ih =>
    intro f hpw hin h2 hr
    rw [List.pairwise_cons] at hpw
    have hd : d < f.length := hin d (by simp)
    have herase : (f.eraseIdx d).length = f.length - 1 := by
      rw [List.length_eraseIdx]
      simp [hd]
    have hone : ∀ row ∈ (List.replicate w 0 :: f.eraseIdx d : Field), row.length = w := by
      intro row hrow
      rcases List.mem_cons.mp hrow with h | h
      · rw [h]
        exact List.length_replicate _ _
      · exact hr row ((List.eraseIdx_sublist f d).mem h)
    have hf1len : (List.replicate w 0 :: f.eraseIdx d : Field).length = f.length := by
      simp only [List.length_cons, herase]
      omega
    have hrec := ih (List.replicate w 0 :: f.eraseIdx d) hpw.2
      (by intro d2 hd2
          rw [hf1len]
          exact hin d2 (List.mem_cons_of_mem d hd2))
      (by rw [hf1len]; exact h2) hone
    have h0 : (0 : Nat) ∉ rest := by
      intro hc
      have := hpw.1 0 hc
      omega
    rw [List.foldlM_cons, clearOne_eq f d w hd h2 hr]
    show (rest.foldlM clearOne (List.replicate w 0 :: f.eraseIdx d))
        = some (List.replicate (d :: rest).length (List.replicate w 0) ++ keepRows f (d :: rest))
    rw [hrec, keepRows, if_neg h0, keepRows_eraseIdx f d rest hpw.1]
    simp only [List.length_cons, List.replicate_succ', List.append_assoc, List.singleton_append]

theorem check_filled_spec (f : Field) (lines : List Nat) (w : Nat)
    (hr : rectangular w f) (h2 : 2 ≤ f.length)
    (hasc : List.Pairwise (· < ·) lines) (hin : ∀ l ∈ lines, l < f.length) :
    check_filled f lines
      = some (List.replicate (lines.filter fun l => rowFull (f.getD l [])).length
            (List.replicate w 0)
          ++ keepRows f (lines.filter fun l => rowFull (f.getD l [])),
        (lines.filter fun l => rowFull (f.getD l [])).length) := by
  have hall : (lines.all fun l => decide (l < f.length)) = true := by
    rw [List.all_eq_true]
    intro l hl
    simpa using hin l hl
  unfold check_filled
  rw [if_pos hall]
  show Option.map (fun f1 => (f1, (lines.filter fun l => rowFull (f.getD l [])).length))
      (List.foldlM clearOne f (lines.filter fun l => rowFull (f.getD l []))) = _
  rw [clear_fold w _ f (hasc.filter _)
    (fun d hd => hin d (List.mem_of_mem_filter hd)) h2 hr]
  rfl

theorem clearOne_inv (acc : Field) (l : Nat) (f1 : Field) (h : clearOne acc l = some f1) :
    f1.length = acc.length ∧ (∀ w, rectangular w acc → rectangular w f1) := by
  unfold clearOne at h
  by_cases hl : l < acc.length
  · rw [if_pos hl] at h
    cases he : acc.eraseIdx l with
    | nil => rw [he] at h; cases h
    | cons r rest =>
      rw [he] at h
      injection h with h
      have hlen := congrArg List.length he
      rw [List.length_eraseIdx] at hlen
      simp only [if_pos hl] at hlen
      constructor
      · rw [← h]
        simp only [List.length_cons]
        simp only [List.length_cons] at hlen
        omega
      · intro w hw row hrow
        rw [← h] at hrow
        rcases List.mem_cons.mp hrow with hq | hq
        · have hrmem : r ∈ acc := (List.eraseIdx_sublist acc l).mem (by rw [he]; simp)
          rw [hq]
          simp only [List.length_replicate]
          exact hw r hrmem
        · exact hw row ((List.eraseIdx_sublist acc l).mem (by rw [he]; exact hq))
  · rw [if_neg hl] at h
    cases h

theorem clear_fold_inv :
    ∀ (ds : List Nat) (f f' : Field), ds.foldlM clearOne f = some f' →
      f'.length = f.length ∧ (∀ w, rectangular w f → rectangular w f') := by
  intro ds
  induction ds with
  | nil =>
    intro f f' h
    injection h with h
    rw [h]
    exact ⟨rfl, fun w hw => hw⟩
  | cons d rest ih =>
    intro f f' h
    rw [List.foldlM_cons] at h
    cases hc : clearOne f d with
    | none => rw [hc] at h; cases h
    | some f1 =>
      rw [hc] at h
      simp only [Option.bind_eq_bind, Option.some_bind] at h
      obtain ⟨hl1, hr1⟩ := clearOne_inv f d f1 hc
      obtain ⟨hl2, hr2⟩ := ih f1 f' h
      exact ⟨by rw [hl2, hl1], fun w hw => hr2 w (hr1 w hw)⟩

theorem filter_eq_single (p : Nat → Bool) :
    ∀ (l : List Nat) (K : Nat), List.Pairwise (· < ·) l → K ∈ l → p K = true →
      (∀ x ∈ l, x ≠ K → p x = false) → l.filter p = [K] := by
  intro l
  induction l with
  | nil => intro K _ hK; cases hK
  | cons a rest ih =>
    intro K hpw hK hpK hother
    rw [List.pairwise_cons] at hpw
    rcases List.mem_cons.mp hK with rfl | hKrest
    · rw [List.filter_cons_of_pos hpK]
      have : rest.filter p = [] := by
        rw [List.filter_eq_nil_iff]
        intro x hx
        have hne : x ≠ K := by
          have := hpw.1 x hx
          omega
        rw [hother x (List.mem_cons_of_mem _ hx) hne]
        simp
      rw [this]
    · have hne : a ≠ K := by
        have := hpw.1 K hKrest
        omega
      rw [List.filter_cons_of_neg (by rw [hother a (by simp) hne]; simp)]
      exact ih K hpw.2 hKrest hpK fun x hx hxne =>
        hother x (List.mem_cons_of_mem _ hx) hxne

/-- C4 (amended): for ascending, duplicate-free, in-range candidate rows
on a rectangular grid with at least two rows, `check_filled` removes
exactly the fully occupied candidate rows, inserts one empty row at the
top per removal (row and column counts preserved), leaves other rows
untouched in order, and returns the number of removed rows; with exactly
one fully occupied row K among the candidates it yields the empty row on
top of the grid with row K removed, returning 1. -/
theorem C4_clear_full_rows (f : Field) (lines : List Nat) (w : Nat)
    (hr : rectangular w f) (h2 : 2 ≤ f.length)
    (hasc : List.Pairwise (· < ·) lines) (hin : ∀ l ∈ lines, l < f.length) :
    check_filled f lines
      = some (List.replicate (lines.filter fun l => rowFull (f.getD l [])).length
            (List.replicate w 0)
          ++ keepRows f (lines.filter fun l => rowFull (f.getD l [])),
        (lines.filter fun l => rowFull (f.getD l [])).length) ∧
    (∀ f' k, check_filled f lines = some (f', k) →
      f'.length = f.length ∧ rectangular w f') ∧
    (∀ K, K ∈ lines → rowFull (f.getD K []) = true →
      (∀ j, j < f.length → j ≠ K → rowFull (f.getD j []) = false) →
      check_filled f lines = some (List.replicate w 0 :: f.eraseIdx K, 1)) := by
  have hspec := check_filled_spec f lines w hr h2 hasc hin
  refine ⟨hspec, ?_, ?_⟩
  · intro f' k h
    rw [hspec] at h
    injection h with h
    injection h with ha hb
    have hall : (lines.all fun l => decide (l < f.length)) = true := by
      rw [List.all_eq_true]
      intro l hl
      simpa using hin l hl
    have hfold : (lines.filter fun l => rowFull (f.getD l [])).foldlM clearOne f
        = some (List.replicate (lines.filter fun l => rowFull (f.getD l [])).length
            (List.replicate w 0)
          ++ keepRows f (lines.filter fun l => rowFull (f.getD l []))) :=
      clear_fold w _ f (hasc.filter _)
        (fun d hd => hin d (List.mem_of_mem_filter hd)) h2 hr
    obtain ⟨hlen, hrect⟩ := clear_fold_inv _ f _ hfold
    rw [← ha]
    exact ⟨hlen, hrect w hr⟩
  · intro K hK hKfull hother
    have hfilter : (lines.filter fun l => rowFull (f.getD l [])) = [K] :=
      filter_eq_single _ lines K hasc hK hKfull
        (fun x hx hxne => hother x (hin x hx) hxne)
    rw [hspec, hfilter, keepRows_single]
    rfl

/-- C4 counterexample: with the unsorted candidate list [3, 0] the
removal loop deletes row 3 and then the freshly inserted empty top row,
so the fully occupied candidate row 0 survives although the count says 2
— and the final grid differs from the one produced by the sorted order
[0, 3]: the result is not order independent and does not remove exactly
the full candidate rows. -/
theorem C4_counterexample :
    rowFull (c4field.getD 0 []) = true ∧ rowFull (c4field.getD 3 []) = true ∧
    check_filled c4field [3, 0]
      = some ([[0,0,0,0],[1,1,1,1],[0,0,0,0],[0,0,0,0]], 2) ∧
    check_filled c4field [3, 0] ≠ check_filled c4field [0, 3] := by
  refine ⟨by decide, by decide, by decide, by decide⟩

/-- C4 witness: the sorted candidate list [0, 3] on the same grid. -/
theorem C4_witness :
    check_filled c4field [0, 3]
      = some (List.replicate ([0, 3].filter fun l => rowFull (c4field.getD l [])).length
            (List.replicate 4 0)
          ++ keepRows c4field ([0, 3].filter fun l => rowFull (c4field.getD l [])),
        ([0, 3].filter fun l => rowFull (c4field.getD l [])).length) ∧
    (∀ f' k, check_filled c4field [0, 3] = some (f', k) →
      f'.length = c4field.length ∧ rectangular 4 f') ∧
    (∀ K, K ∈ [0, 3] → rowFull (c4field.getD K []) = true →
      (∀ j, j < c4field.length → j ≠ K → rowFull (c4field.getD j []) = false) →
      check_filled c4field [0, 3] = some (List.replicate 4 0 :: c4field.eraseIdx K, 1)) :=
  C4_clear_full_rows c4field [0, 3] 4 (by unfold rectangular; decide) (by decide) (by decide) (by decide)

/-! ### C3: locking then re-testing collision -/

theorem writeCell_length (f : Field) (r c v : Nat) : (writeCell f r c v).length = f.length :=
  List.length_set ..

theorem getD_set_self (L : List (List Nat)) (i : Nat) (x : List Nat) (h : i < L.length) :
    (L.set i x).getD i [] = x := by
  unfold List.getD
  rw [List.get?_eq_getElem?, List.getElem?_set_eq_of_lt x h]
  rfl

theorem getD_set_ne (L : List (List Nat)) (i j : Nat) (x : List Nat) (h : i ≠ j) :
    (L.set i x).getD j [] = L.getD j [] := by
  unfold List.getD
  rw [List.get?_eq_getElem?, List.get?_eq_getElem?, List.getElem?_set_ne h]

theorem getDN_set_self (L : List Nat) (i : Nat) (x : Nat) (h : i < L.length) :
    (L.set i x).getD i 0 = x := by
  unfold List.getD
  rw [List.get?_eq_getElem?, List.getElem?_set_eq_of_lt x h]
  rfl

theorem getDN_set_ne (L : List Nat) (i j : Nat) (x : Nat) (h : i ≠ j) :
    (L.set i x).getD j 0 = L.getD j 0 := by
  unfold List.getD
  rw [List.get?_eq_getElem?, List.get?_eq_getElem?, List.getElem?_set_ne h]

theorem writeCell_row_len (f : Field) (r c v j : Nat) :
    ((writeCell f r c v).getD j []).length = (f.getD j []).length := by
  unfold writeCell
  by_cases hj : r = j
  · subst hj
    by_cases hr : r < f.length
    · rw [getD_set_self _ _ _ hr, List.length_set]
    · rw [List.set_eq_of_length_le (by omega)]
  · rw [getD_set_ne _ _ _ _ hj]

theorem cellAt_writeCell_cases (acc : Field) (r' c' v r c : Nat) :
    cellAt (writeCell acc r' c' v) r c = v ∨
      cellAt (writeCell acc r' c' v) r c = cellAt acc r c := by
  unfold writeCell cellAt
  by_cases hj : r' = r
  · subst hj
    by_cases hr : r' < acc.length
    · rw [getD_set_self _ _ _ hr]
      by_cases hc : c' = c
      · subst hc
        by_cases hcl : c' < (acc.getD r' []).length
        · left
          rw [getDN_set_self _ _ _ hcl]
        · right
          rw [List.set_eq_of_length_le (by omega)]
      · right
        rw [getDN_set_ne _ _ _ _ hc]
    · right
      rw [List.set_eq_of_length_le (by omega)]
  · right
    rw [getD_set_ne _ _ _ _ hj]

theorem cellAt_writeCell_self (acc : Field) (r c v : Nat) (h1 : r < acc.length)
    (h2 : c < (acc.getD r []).length) : cellAt (writeCell acc r c v) r c = v := by
  unfold writeCell cellAt
  rw [getD_set_self _ _ _ h1, getDN_set_self _ _ _ h2]

theorem sameDims_refl (f : Field) : sameDims f f := ⟨rfl, fun _ => rfl⟩

theorem sameDims_writeCell (f g : Field) (r c v : Nat) (h : sameDims f g) :
    sameDims f (writeCell g r c v) :=
  ⟨by rw [writeCell_length, h.1], fun j => by rw [writeCell_row_len, h.2 j]⟩

theorem sameDims_in_bounds (f g : Field) (h : sameDims f g) (x y : Int) (r : Bool) :
    in_bounds g x y r = in_bounds f x y r := by
  unfold in_bounds width
  rw [h.1, h.2 0]

theorem foldl_pres {P : Field → Prop} (g : Field → Nat → Field)
    (hp : ∀ acc i, P acc → P (g acc i)) :
    ∀ (l : List Nat) (acc : Field), P acc → P (l.foldl g acc) := by
  intro l
  induction l with
  | nil => intro acc h; exact h
  | cons y ys ih => intro acc h; exact ih (g acc y) (hp acc y h)

theorem foldl_establish {P D : Field → Prop} (g : Field → Nat → Field) (x : Nat)
    (hd : ∀ acc i, D acc → D (g acc i))
    (hp : ∀ acc i, P acc → P (g acc i))
    (he : ∀ acc, D acc → P (g acc x)) :
    ∀ (l : List Nat) (acc : Field), x ∈ l → D acc → P (l.foldl g acc) := by
  intro l
  induction l with
  | nil => intro acc hx; cases hx
  | cons y ys ih =>
    intro acc hx hD
    rcases List.mem_cons.mp hx with rfl | hx2
    · exact foldl_pres g hp ys (g acc x) (he acc hD)
    · exact ih (g acc y) hx2 (hd acc y hD)

theorem has_collision_iff (f : Field) (b : Block) :
    has_collision f b = true ↔ ∃ j i, j < f.length ∧ i < (f.getD j []).length ∧
      0 ≤ (i : Int) - b.x ∧ (i : Int) - b.x < (b.shape.length : Int) ∧
      0 ≤ (j : Int) - b.y ∧ (j : Int) - b.y < (b.shape.length : Int) ∧
      0 < cellAt b.shape ((j : Int) - b.y).toNat ((i : Int) - b.x).toNat ∧
      0 < cellAt f j i := by
  unfold has_collision
  simp only [List.any_eq_true, List.mem_range, Bool.and_eq_true, decide_eq_true_eq]
  constructor
  · rintro ⟨j, hj, i, hi, ⟨⟨⟨⟨h1, h2⟩, h3⟩, h4⟩, h5⟩, h6⟩
    exact ⟨j, i, hj, hi, h1, h2, h3, h4, h5, h6⟩
  · rintro ⟨j, i, hj, hi, h1, h2, h3, h4, h5, h6⟩
    exact ⟨j, hj, i, hi, ⟨⟨⟨⟨h1, h2⟩, h3⟩, h4⟩, h5⟩, h6⟩

theorem getD_mem (l : Field) (n : Nat) (h : n < l.length) : l.getD n [] ∈ l := by
  rw [List.getD_eq_getElem l [] h]
  exact List.getElem_mem h

theorem shape_length (b : Block) : b.shape.length = b.tetromino.shape.length := by
  unfold Block.shape
  simp

theorem shape_square (b : Block) (j : Nat) (h : j < b.shape.length) :
    (b.shape.getD j []).length = b.shape.length := by
  rw [shape_length] at h ⊢
  unfold Block.shape
  rw [List.getD_eq_getElem _ [] (by simpa using h)]
  simp

theorem consumeWrites_dims (f : Field) (b : Block) : sameDims f (consumeWrites f b) := by
  unfold consumeWrites
  refine foldl_pres _ ?_ _ f (sameDims_refl f)
  intro acc j hacc
  refine foldl_pres _ ?_ _ acc hacc
  intro acc2 i hacc2
  by_cases hcond : (decide (0 < cellAt b.shape j i) &&
      in_bounds acc2 (b.x + (i : Int)) (b.y + (j : Int)) false) = true
  · rw [if_pos hcond]
    exact sameDims_writeCell _ _ _ _ _ hacc2
  · rw [if_neg hcond]
    exact hacc2

theorem consume_no_clear (f : Field) (b : Block) (f' : Field)
    (hcons : consume f b = some (f', 0)) : f' = consumeWrites f b := by
  unfold consume check_filled at hcons
  by_cases hall : (((List.range (consumeWrites f b).length).filter fun r =>
      writesRow (consumeWrites f b) b r).all fun l =>
        decide (l < (consumeWrites f b).length)) = true
  · rw [if_pos hall] at hcons
    replace hcons : Option.map
        (fun f1 => (f1, (((List.range (consumeWrites f b).length).filter fun r =>
            writesRow (consumeWrites f b) b r).filter fun l =>
              rowFull ((consumeWrites f b).getD l [])).length))
        ((((List.range (consumeWrites f b).length).filter fun r =>
            writesRow (consumeWrites f b) b r).filter fun l =>
              rowFull ((consumeWrites f b).getD l [])).foldlM clearOne (consumeWrites f b))
        = some (f', 0) := hcons
    cases hfold : (((List.range (consumeWrites f b).length).filter fun r =>
        writesRow (consumeWrites f b) b r).filter fun l =>
          rowFull ((consumeWrites f b).getD l [])).foldlM clearOne (consumeWrites f b) with
    | none => rw [hfold] at hcons; cases hcons
    | some ff =>
      rw [hfold] at hcons
      injection hcons with hcons
      injection hcons with h1 h2
      have hnil : (((List.range (consumeWrites f b).length).filter fun r =>
          writesRow (consumeWrites f b) b r).filter fun l =>
            rowFull ((consumeWrites f b).getD l [])) = [] :=
        List.length_eq_zero.mp h2
      rw [hnil] at hfold
      injection hfold with hfold
      rw [← h1, ← hfold]
  · rw [if_neg hall] at hcons
    cases hcons

/-- C3 (amended): locking a non-colliding block that has at least one
in-bounds nonzero shape cell, when the lock clears no rows, makes
`has_collision` at the same kind, rotation and position return true (the
written cells are now occupied), not false. -/
theorem C3_lock_then_collides (f : Field) (b : Block) (w : Nat) (f' : Field)
    (j0 i0 : Nat)
    (hr : rectangular w f)
    (hcol : has_collision f b = false)
    (hj0 : j0 < b.shape.length) (hi0 : i0 < (b.shape.getD j0 []).length)
    (hcell : 0 < cellAt b.shape j0 i0)
    (hib : in_bounds f (b.x + (i0 : Int)) (b.y + (j0 : Int)) false = true)
    (hcons : consume f b = some (f', 0)) :
    has_collision f' b = true := by
  have hib' : 0 ≤ b.y + (j0 : Int) ∧ b.y + (j0 : Int) < (f.length : Int) ∧
      0 ≤ b.x + (i0 : Int) ∧ b.x + (i0 : Int) < ((width f : Nat) : Int) := by
    unfold in_bounds at hib
    simp only [Bool.false_or, Bool.and_eq_true, decide_eq_true_eq] at hib
    exact ⟨hib.1.1.1, hib.1.1.2, hib.1.2, hib.2⟩
  have hflen : 0 < f.length := by omega
  have hwidth : width f = w := hr (f.getD 0 []) (getD_mem f 0 hflen)
  have hrowlen : ∀ g : Field, sameDims f g →
      ((b.x + (i0 : Int)).toNat < (g.getD (b.y + (j0 : Int)).toNat []).length) := by
    intro g hg
    rw [hg.2]
    have : f.getD (b.y + (j0 : Int)).toNat [] ∈ f :=
      getD_mem f _ (by omega)
    rw [hr _ this]
    omega
  -- the write phase leaves a positive cell at the chosen position
  have hpos : 0 < cellAt (consumeWrites f b)
      (b.y + (j0 : Int)).toNat (b.x + (i0 : Int)).toNat := by
    unfold consumeWrites
    refine foldl_establish (D := sameDims f)
      (P := fun acc => 0 < cellAt acc (b.y + (j0 : Int)).toNat (b.x + (i0 : Int)).toNat)
      _ j0 ?_ ?_ ?_ _ f (by simpa using hj0) (sameDims_refl f)
    · intro acc j hacc
      refine foldl_pres _ ?_ _ acc hacc
      intro acc2 i hacc2
      by_cases hcond : (decide (0 < cellAt b.shape j i) &&
          in_bounds acc2 (b.x + (i : Int)) (b.y + (j : Int)) false) = true
      · rw [if_pos hcond]
        exact sameDims_writeCell _ _ _ _ _ hacc2
      · rw [if_neg hcond]
        exact hacc2
    · intro acc j hacc
      refine foldl_pres
        (P := fun acc => 0 < cellAt acc (b.y + (j0 : Int)).toNat (b.x + (i0 : Int)).toNat)
        _ ?_ _ acc hacc
      intro acc2 i hacc2
      by_cases hcond : (decide (0 < cellAt b.shape j i) &&
          in_bounds acc2 (b.x + (i : Int)) (b.y + (j : Int)) false) = true
      · rw [if_pos hcond]
        rcases cellAt_writeCell_cases acc2 (b.y + (j : Int)).toNat (b.x + (i : Int)).toNat
          (cellAt b.shape j i) (b.y + (j0 : Int)).toNat (b.x + (i0 : Int)).toNat with hc | hc
        · rw [hc]
          rw [Bool.and_eq_true, decide_eq_true_eq] at hcond
          exact hcond.1
        · rw [hc]
          exact hacc2
      · rw [if_neg hcond]
        exact hacc2
    · intro acc hacc
      refine foldl_establish (D := sameDims f)
        (P := fun acc => 0 < cellAt acc (b.y + (j0 : Int)).toNat (b.x + (i0 : Int)).toNat)
        _ i0 ?_ ?_ ?_ _ acc (by simpa using hi0) hacc
      · intro acc2 i hacc2
        by_cases hcond : (decide (0 < cellAt b.shape j0 i) &&
            in_bounds acc2 (b.x + (i : Int)) (b.y + (j0 : Int)) false) = true
        · rw [if_pos hcond]
          exact sameDims_writeCell _ _ _ _ _ hacc2
        · rw [if_neg hcond]
          exact hacc2
      · intro acc2 i hacc2
        by_cases hcond : (decide (0 < cellAt b.shape j0 i) &&
            in_bounds acc2 (b.x + (i : Int)) (b.y + (j0 : Int)) false) = true
        · rw [if_pos hcond]
          rcases cellAt_writeCell_cases acc2 (b.y + (j0 : Int)).toNat (b.x + (i : Int)).toNat
            (cellAt b.shape j0 i) (b.y + (j0 : Int)).toNat (b.x + (i0 : Int)).toNat with hc | hc
          · rw [hc]
            rw [Bool.and_eq_true, decide_eq_true_eq] at hcond
            exact hcond.1
          · rw [hc]
            exact hacc2
        · rw [if_neg hcond]
          exact hacc2
      · intro acc2 hacc2
        have hcond : (decide (0 < cellAt b.shape j0 i0) &&
            in_bounds acc2 (b.x + (i0 : Int)) (b.y + (j0 : Int)) false) = true := by
          rw [Bool.and_eq_true, decide_eq_true_eq]
          exact ⟨hcell, by rw [sameDims_in_bounds f acc2 hacc2]; exact hib⟩
        rw [if_pos hcond]
        rw [cellAt_writeCell_self acc2 _ _ _ (by rw [hacc2.1]; omega) (hrowlen acc2 hacc2)]
        exact hcell
  have hf' : f' = consumeWrites f b := consume_no_clear f b f' hcons
  have hdims : sameDims f f' := hf' ▸ consumeWrites_dims f b
  rw [has_collision_iff]
  refine ⟨(b.y + (j0 : Int)).toNat, (b.x + (i0 : Int)).toNat, ?_, ?_, ?_, ?_, ?_, ?_, ?_, ?_⟩
  · rw [hdims.1]
    omega
  · exact hrowlen f' hdims
  · omega
  · have := shape_square b j0 hj0
    omega
  · omega
  · omega
  · have e1 : ((((b.y + (j0 : Int)).toNat : Nat) : Int) - b.y).toNat = j0 := by omega
    have e2 : ((((b.x + (i0 : Int)).toNat : Nat) : Int) - b.x).toNat = i0 := by omega
    rw [e1, e2]
    exact hcell
  · rw [hf']
    exact hpos

/-- C3 counterexample: the block does not collide before the lock, but
after `consume` writes its cells into the grid, `has_collision` for the
same kind, rotation and position returns true, not false as claimed. -/
theorem C3_counterexample :
    has_collision c3field c3block = false ∧
    (consume c3field c3block).map (fun p => has_collision p.1 c3block) = some true :=
  ⟨by decide, by decide⟩

/-- C3 witness: the amended theorem applied to the same lock. -/
theorem C3_witness :
    has_collision [[7,7,0,0],[7,7,0,0],[0,0,0,0],[0,0,0,0]] c3block = true :=
  C3_lock_then_collides c3field c3block 4 [[7,7,0,0],[7,7,0,0],[0,0,0,0],[0,0,0,0]] 0 0
    (by unfold rectangular; decide) (by decide) (by decide) (by decide) (by decide)
    (by decide) (by decide)

/-! ### C2: altitude and hard drop -/

theorem foldl_last_update {p : Nat → Prop} [DecidablePred p] (g : Nat → Int) :
    ∀ n : Nat,
      ((List.range n).foldl (fun acc j => if p j then some (g j) else acc) none = none →
        ∀ j, j < n → ¬ p j) ∧
      (∀ L, (List.range n).foldl (fun acc j => if p j then some (g j) else acc) none = some L →
        ∃ jm, jm < n ∧ p jm ∧ L = g jm ∧ ∀ j, jm < j → j < n → ¬ p j) := by
  intro n
  induction n with
  | zero => exact ⟨fun _ j hj => absurd hj (by omega), fun L hL => by cases hL⟩
  | succ n ih =>
    rw [List.range_succ, List.foldl_append]
    constructor
    · intro hnone j hj
      by_cases hpn : p n
      · rw [List.foldl_cons, if_pos hpn] at hnone
        cases hnone
      · rw [List.foldl_cons, if_neg hpn, List.foldl_nil] at hnone
        rcases Nat.lt_succ_iff_lt_or_eq.mp hj with hlt | rfl
        · exact ih.1 hnone j hlt
        · exact hpn
    · intro L hL
      by_cases hpn : p n
      · rw [List.foldl_cons, if_pos hpn, List.foldl_nil] at hL
        injection hL with hL
        exact ⟨n, by omega, hpn, hL.symm, fun j h1 h2 => absurd (by omega : j < n) (by omega)⟩
      · rw [List.foldl_cons, if_neg hpn, List.foldl_nil] at hL
        obtain ⟨jm, h1, h2, h3, h4⟩ := ih.2 L hL
        refine ⟨jm, by omega, h2, h3, ?_⟩
        intro j hj1 hj2
        rcases Nat.lt_succ_iff_lt_or_eq.mp hj2 with hlt | rfl
        · exact h4 j hj1 hlt
        · exact hpn

theorem colLowest_none (s : List (List Nat)) (y : Int) (i : Nat)
    (h : colLowest s y i = none) : ∀ j, j < s.length → cellAt s j i = 0 := by
  intro j hj
  have := (foldl_last_update (p := fun j => 0 < cellAt s j i) (fun j => (j : Int) + y)
    s.length).1 h j hj
  omega

theorem colLowest_some (s : List (List Nat)) (y : Int) (i : Nat) (L : Int)
    (h : colLowest s y i = some L) :
    ∃ jm, jm < s.length ∧ 0 < cellAt s jm i ∧ L = (jm : Int) + y ∧
      ∀ j, jm < j → j < s.length → cellAt s j i = 0 := by
  obtain ⟨jm, h1, h2, h3, h4⟩ := (foldl_last_update (p := fun j => 0 < cellAt s j i)
    (fun j => (j : Int) + y) s.length).2 L h
  exact ⟨jm, h1, h2, h3, fun j hj1 hj2 => by have := h4 j hj1 hj2; omega⟩

theorem firstOccAux_some (c : Nat) :
    ∀ (rows : List (List Nat)) (y0 : Nat), (∀ row ∈ rows, c < row.length) →
      ∃ r, firstOccAux c rows y0 = some r ∧
        (r = none → ∀ k, k < rows.length → (rows.getD k []).getD c 0 = 0) ∧
        (∀ H, r = some H → y0 ≤ H ∧ H - y0 < rows.length ∧
          0 < (rows.getD (H - y0) []).getD c 0 ∧
          ∀ k, k < H - y0 → (rows.getD k []).getD c 0 = 0) := by
  intro rows
  induction rows with
  | nil =>
    intro y0 _
    refine ⟨none, rfl, ?_, ?_⟩
    · intro _ k hk
      simp at hk
    · intro H hH
      cases hH
  | cons row rest ih =>
    intro y0 hc
    have hrow : c < row.length := hc row (by simp)
    by_cases hocc : 0 < row.getD c 0
    · refine ⟨some y0, ?_, ?_, ?_⟩
      · rw [firstOccAux, if_pos hrow, if_pos hocc]
      · intro h
        cases h
      · intro H hH
        injection hH with hH
        subst hH
        refine ⟨le_refl _, ?_, ?_, ?_⟩
        · simp only [Nat.sub_self, List.length_cons]
          omega
        · simp only [Nat.sub_self, List.getD_cons_zero]
          exact hocc
        · intro k hk
          omega
    · obtain ⟨r, hr, hnone, hsome⟩ := ih (y0 + 1) (fun row2 h2 => hc row2 (by simp [h2]))
      have hstep : firstOccAux c (row :: rest) y0 = firstOccAux c rest (y0 + 1) := by
        rw [firstOccAux, if_pos hrow, if_neg hocc]
      refine ⟨r, by rw [hstep]; exact hr, ?_, ?_⟩
      · intro h k hk
        cases k with
        | zero =>
          show row.getD c 0 = 0
          omega
        | succ k =>
          have := hnone h k (by simpa using hk)
          simpa using this
      · intro H hH
        obtain ⟨hy1, hy2, hy3, hy4⟩ := hsome H hH
        have hdiff : H - y0 = (H - (y0 + 1)) + 1 := by omega
        refine ⟨by omega, ?_, ?_, ?_⟩
        · simp only [List.length_cons]
          omega
        · rw [hdiff]
          simpa using hy3
        · intro k hk
          cases k with
          | zero =>
            show row.getD c 0 = 0
            omega
          | succ k =>
            have := hy4 k (by omega)
            simpa using this

theorem colHighest_spec (f : Field) (w : Nat) (hr : rectangular w f) (c : Int)
    (h0 : 0 ≤ c) (hcw : c < (w : Int)) :
    ∃ H, colHighest f c = some H ∧ 0 ≤ H ∧ H ≤ (f.length : Int) ∧
      (∀ k : Nat, k < f.length → (k : Int) < H → cellAt f k c.toNat = 0) ∧
      (H < (f.length : Int) → 0 < cellAt f H.toNat c.toNat) := by
  have hcall : ∀ row ∈ f, c.toNat < row.length := by
    intro row hrow
    rw [hr row hrow]
    omega
  obtain ⟨r, hrq, hnone, hsome⟩ := firstOccAux_some c.toNat f 0 hcall
  unfold colHighest
  rw [if_pos h0, hrq]
  cases r with
  | none =>
    refine ⟨(f.length : Int), rfl, by omega, le_refl _, ?_, ?_⟩
    · intro k hk _
      exact hnone rfl k hk
    · intro hH
      omega
  | some H0 =>
    obtain ⟨h1, h2, h3, h4⟩ := hsome H0 rfl
    rw [Nat.sub_zero] at h2 h3
    refine ⟨(H0 : Int), rfl, by omega, by omega, ?_, ?_⟩
    · intro k hk hkH
      exact h4 k (by omega)
    · intro _
      exact h3

theorem altM_spec (G : Nat → Option (Option Int)) :
    ∀ (l : List Nat) (init : Int), (∀ i ∈ l, G i ≠ none) →
      ∃ a, l.foldlM (fun alt i => (G i).map fun g =>
          match g with | none => alt | some g => min alt g) init = some a ∧
        a ≤ init ∧
        (∀ i ∈ l, ∀ g, G i = some (some g) → a ≤ g) ∧
        (a = init ∨ ∃ i ∈ l, G i = some (some a)) := by
  intro l
  induction l with
  | nil =>
    intro init _
    exact ⟨init, rfl, le_refl _, fun i hi => absurd hi (by simp), Or.inl rfl⟩
  | cons x xs ih =>
    intro init hG
    have hx : G x ≠ none := hG x (by simp)
    cases hgx : G x with
    | none => exact absurd hgx hx
    | some gopt =>
      cases gopt with
      | none =>
        obtain ⟨a, ha, h1, h2, h3⟩ := ih init (fun i hi => hG i (by simp [hi]))
        refine ⟨a, ?_, h1, ?_, ?_⟩
        · rw [List.foldlM_cons, hgx]
          exact ha
        · intro i hi g hgi
          rcases List.mem_cons.mp hi with rfl | hi2
          · rw [hgx] at hgi
            injection hgi with e
            cases e
          · exact h2 i hi2 g hgi
        · rcases h3 with h | ⟨i, hi, hgi⟩
          · exact Or.inl h
          · exact Or.inr ⟨i, by simp [hi], hgi⟩
      | some g0 =>
        obtain ⟨a, ha, h1, h2, h3⟩ := ih (min init g0) (fun i hi => hG i (by simp [hi]))
        refine ⟨a, ?_, ?_, ?_, ?_⟩
        · rw [List.foldlM_cons, hgx]
          exact ha
        · exact le_trans h1 (min_le_left _ _)
        · intro i hi g hgi
          rcases List.mem_cons.mp hi with rfl | hi2
          · rw [hgx] at hgi
            injection hgi with e
            injection e with e
            subst e
            exact le_trans h1 (min_le_right _ _)
          · exact h2 i hi2 g hgi
        · rcases h3 with h | ⟨i, hi, hgi⟩
          · rcases le_total init g0 with hle | hle
            · left
              rw [h]
              exact min_eq_left hle
            · right
              refine ⟨x, by simp, ?_⟩
              rw [hgx, h, min_eq_right hle]
          · exact Or.inr ⟨i, by simp [hi], hgi⟩

theorem has_overflow_iff (f : Field) (b : Block) :
    has_overflow f b = true ↔ ∃ j i, j < b.shape.length ∧ i < (b.shape.getD j []).length ∧
      0 < cellAt b.shape j i ∧ in_bounds f (b.x + (i : Int)) (b.y + (j : Int)) true = false := by
  unfold has_overflow
  simp only [List.any_eq_true, List.mem_range, Bool.and_eq_true, decide_eq_true_eq,
    Bool.not_eq_true']
  constructor
  · rintro ⟨j, hj, i, hi, h1, h2⟩
    exact ⟨j, i, hj, hi, h1, h2⟩
  · rintro ⟨j, i, hj, hi, h1, h2⟩
    exact ⟨j, hj, i, hi, h1, h2⟩

theorem has_overflow_false_elim (f : Field) (b : Block) (h : has_overflow f b = false) :
    ∀ j i, j < b.shape.length → i < (b.shape.getD j []).length → 0 < cellAt b.shape j i →
      in_bounds f (b.x + (i : Int)) (b.y + (j : Int)) true = true := by
  intro j i hj hi hc
  cases hb : in_bounds f (b.x + (i : Int)) (b.y + (j : Int)) true with
  | true => rfl
  | false =>
    have : has_overflow f b = true := (has_overflow_iff f b).mpr ⟨j, i, hj, hi, hc, hb⟩
    rw [h] at this
    cases this

theorem in_bounds_relaxed_iff (f : Field) (x y : Int) :
    in_bounds f x y true = true ↔
      y < (f.length : Int) ∧ 0 ≤ x ∧ x < ((width f : Nat) : Int) := by
  unfold in_bounds
  simp only [Bool.true_or, Bool.true_and, Bool.and_eq_true, decide_eq_true_eq]
  exact and_assoc

theorem in_bounds_relaxed_false (f : Field) (x y : Int) (h : (f.length : Int) ≤ y) :
    in_bounds f x y true = false := by
  cases hb : in_bounds f x y true with
  | false => rfl
  | true =>
    rw [in_bounds_relaxed_iff] at hb
    omega

@[simp] theorem setY_x (b : Block) (e : Int) : ({ b with y := e } : Block).x = b.x := rfl

@[simp] theorem setY_y (b : Block) (e : Int) : ({ b with y := e } : Block).y = e := rfl

@[simp] theorem setY_shape (b : Block) (e : Int) :
    ({ b with y := e } : Block).shape = b.shape := rfl

theorem shape_has_cell_canon (t : Tetromino) (r : Rotation) :
    ∃ j i, j < (Block.shape ⟨t, r, 0, 0, none, none, none⟩).length ∧
      i < ((Block.shape ⟨t, r, 0, 0, none, none, none⟩).getD j []).length ∧
      0 < cellAt (Block.shape ⟨t, r, 0, 0, none, none, none⟩) j i := by
  cases t <;> cases r <;>
    first
    | exact ⟨1, 1, by decide, by decide, by decide⟩
    | exact ⟨2, 1, by decide, by decide, by decide⟩
    | exact ⟨1, 2, by decide, by decide, by decide⟩

theorem shape_has_cell (b : Block) :
    ∃ j i, j < b.shape.length ∧ i < (b.shape.getD j []).length ∧ 0 < cellAt b.shape j i := by
  have h := shape_has_cell_canon b.tetromino b.rotation
  have hb : Block.shape ⟨b.tetromino, b.rotation, 0, 0, none, none, none⟩ = b.shape := rfl
  rw [hb] at h
  exact h

theorem column_facts (f : Field) (b : Block) (w : Nat)
    (hr : rectangular w f) (hov : has_overflow f b = false)
    (i : Nat) (hi : i < b.shape.length)
    (j : Nat) (hj : j < b.shape.length) (hc : 0 < cellAt b.shape j i) :
    b.y + (j : Int) < (f.length : Int) ∧ 0 ≤ b.x + (i : Int) ∧
      b.x + (i : Int) < ((width f : Nat) : Int) ∧ width f = w ∧ 0 < f.length := by
  have hib := has_overflow_false_elim f b hov j i hj (by rw [shape_square b j hj]; exact hi) hc
  rw [in_bounds_relaxed_iff] at hib
  have hwpos : 0 < width f := by omega
  have hfne : 0 < f.length := by
    by_contra hcon
    have hfnil : f = [] := List.length_eq_zero.mp (by omega)
    rw [hfnil] at hwpos
    simp [width] at hwpos
  exact ⟨hib.1, hib.2.1, hib.2.2, hr (f.getD 0 []) (getD_mem f 0 hfne), hfne⟩

theorem colGap_some (f : Field) (b : Block) (w : Nat)
    (hr : rectangular w f) (hov : has_overflow f b = false)
    (i : Nat) (hin : i < b.shape.length)
    (L : Int) (hlow : colLowest b.shape b.y i = some L) :
    ∃ H, colHighest f (b.x + (i : Int)) = some H ∧
      colGap f b i = some (some (H - L - 1)) ∧
      0 ≤ H ∧ H ≤ (f.length : Int) ∧
      (∀ k : Nat, k < f.length → (k : Int) < H → cellAt f k (b.x + (i : Int)).toNat = 0) ∧
      (H < (f.length : Int) → 0 < cellAt f H.toNat (b.x + (i : Int)).toNat) := by
  obtain ⟨jm, hjm1, hjm2, hjm3, hjm4⟩ := colLowest_some b.shape b.y i L hlow
  obtain ⟨hyb, hx0, hxw, hwf, hfne⟩ := column_facts f b w hr hov i hin jm hjm1 hjm2
  obtain ⟨H, hH, hH0, hHle, hHzero, hHpos⟩ :=
    colHighest_spec f w hr (b.x + (i : Int)) hx0 (by rw [hwf] at hxw; exact hxw)
  refine ⟨H, hH, ?_, hH0, hHle, hHzero, hHpos⟩
  unfold colGap
  rw [hlow, hH]

theorem colGap_ne_none (f : Field) (b : Block) (w : Nat)
    (hr : rectangular w f) (hov : has_overflow f b = false)
    (i : Nat) (hin : i < b.shape.length) : colGap f b i ≠ none := by
  cases hlow : colLowest b.shape b.y i with
  | none =>
    unfold colGap
    rw [hlow]
    simp
  | some L =>
    obtain ⟨H, hH, hgap, _⟩ := colGap_some f b w hr hov i hin L hlow
    rw [hgap]
    simp

/-- C2 (amended): for every rectangular grid and every block at spawn
height or below (y ≥ -1) that neither collides nor overflows, moving down
by `altitude` yields a non-colliding position, and one further row down
collides or overflows: the computed drop distance is the exact maximal
non-colliding descent and `drop` applies it without re-validation.  For
blocks floating far above the grid the distance is capped at the row
count and the maximality half fails. -/
theorem C2_drop_distance (f : Field) (b : Block) (w : Nat)
    (hr : rectangular w f) (hcol : has_collision f b = false)
    (hov : has_overflow f b = false) (hy : -1 ≤ b.y) :
    ∃ a, altitude f b = some a ∧
      drop f b = some (a, { b with y := b.y + a }) ∧
      has_collision f { b with y := b.y + a } = false ∧
      (has_collision f { b with y := b.y + a + 1 } = true ∨
        has_overflow f { b with y := b.y + a + 1 } = true) := by
  have hGtot : ∀ i ∈ List.range b.shape.length, colGap f b i ≠ none := fun i hi =>
    colGap_ne_none f b w hr hov i (List.mem_range.mp hi)
  obtain ⟨a, ha, hle, hbound, hmem⟩ := altM_spec (colGap f b) (List.range b.shape.length)
    (f.length : Int) hGtot
  have halt : altitude f b = some a := ha
  refine ⟨a, halt, ?_, ?_, ?_⟩
  · unfold drop
    rw [halt]
    rfl
  · cases hc : has_collision f { b with y := b.y + a } with
    | false => rfl
    | true =>
      exfalso
      rw [has_collision_iff] at hc
      simp only [setY_x, setY_y, setY_shape] at hc
      obtain ⟨gj, gi, hgj, hgi, c1, c2, c3, c4, c5, c6⟩ := hc
      have hsj : ((((gj : Int) - (b.y + a)).toNat : Nat) : Int) = (gj : Int) - (b.y + a) := by
        omega
      have hsi : ((((gi : Int) - b.x).toNat : Nat) : Int) = (gi : Int) - b.x := by omega
      have hsjn : ((gj : Int) - (b.y + a)).toNat < b.shape.length := by omega
      have hsin : ((gi : Int) - b.x).toNat < b.shape.length := by omega
      cases hlow : colLowest b.shape b.y (((gi : Int) - b.x).toNat) with
      | none =>
        have := colLowest_none b.shape b.y _ hlow _ hsjn
        omega
      | some L =>
        obtain ⟨jm, hjm1, hjm2, hjm3, hjm4⟩ := colLowest_some b.shape b.y _ L hlow
        have hsjle : ((gj : Int) - (b.y + a)).toNat ≤ jm := by
          by_contra hgt
          have := hjm4 _ (by omega) hsjn
          omega
        obtain ⟨H, hH, hgap, hH0, hHle, hHzero, hHpos⟩ :=
          colGap_some f b w hr hov _ hsin L hlow
        have hb2 := hbound _ (List.mem_range.mpr hsin) _ hgap
        have hgjH : (gj : Int) < H := by omega
        have hz := hHzero gj hgj hgjH
        have hcoln : (b.x + ((((gi : Int) - b.x).toNat : Nat) : Int)).toNat = gi := by omega
        rw [hcoln] at hz
        omega
  · have hMem : ∃ i, i < b.shape.length ∧ ∃ L H, colLowest b.shape b.y i = some L ∧
        colHighest f (b.x + (i : Int)) = some H ∧ a = H - L - 1 := by
      rcases hmem with hinit | ⟨i, hi, hgi⟩
      · obtain ⟨j1, i1, hj1, hi1, hc1⟩ := shape_has_cell b
        have hi1n : i1 < b.shape.length := by
          rw [shape_square b j1 hj1] at hi1
          exact hi1
        cases hlow : colLowest b.shape b.y i1 with
        | none =>
          exfalso
          have := colLowest_none b.shape b.y i1 hlow j1 hj1
          omega
        | some L =>
          obtain ⟨H, hH, hgap, hH0, hHle, _, _⟩ := colGap_some f b w hr hov i1 hi1n L hlow
          have hb2 := hbound i1 (List.mem_range.mpr hi1n) _ hgap
          obtain ⟨jm, hjm1, hjm2, hjm3, hjm4⟩ := colLowest_some b.shape b.y i1 L hlow
          have haeq : a = H - L - 1 := by omega
          exact ⟨i1, hi1n, L, H, hlow, hH, haeq⟩
      · have hin := List.mem_range.mp hi
        cases hlow : colLowest b.shape b.y i with
        | none =>
          exfalso
          unfold colGap at hgi
          rw [hlow] at hgi
          injection hgi with e
          cases e
        | some L =>
          obtain ⟨H, hH, hgap, _⟩ := colGap_some f b w hr hov i hin L hlow
          rw [hgap] at hgi
          injection hgi with e
          injection e with e
          exact ⟨i, hin, L, H, hlow, hH, e.symm⟩
    obtain ⟨i1, hi1n, L, H, hlow, hH, haeq⟩ := hMem
    obtain ⟨jm, hjm1, hjm2, hjm3, hjm4⟩ := colLowest_some b.shape b.y i1 L hlow
    obtain ⟨hyb, hx0, hxw, hwf, hfne⟩ := column_facts f b w hr hov i1 hi1n jm hjm1 hjm2
    obtain ⟨H2, hH2, hgap2, hH0, hHle, hHzero, hHpos⟩ :=
      colGap_some f b w hr hov i1 hi1n L hlow
    rw [hH] at hH2
    injection hH2 with hH2
    subst hH2
    by_cases hHlt : H < (f.length : Int)
    · left
      rw [has_collision_iff]
      simp only [setY_x, setY_y, setY_shape]
      refine ⟨H.toNat, (b.x + (i1 : Int)).toNat, ?_, ?_, ?_, ?_, ?_, ?_, ?_, ?_⟩
      · omega
      · have hrow : (f.getD H.toNat []).length = w := hr _ (getD_mem f H.toNat (by omega))
        omega
      · omega
      · omega
      · omega
      · omega
      · have e1 : (((H.toNat : Nat) : Int) - (b.y + a + 1)).toNat = jm := by omega
        have e2 : ((((b.x + (i1 : Int)).toNat : Nat) : Int) - b.x).toNat = i1 := by omega
        rw [e1, e2]
        exact hjm2
      · exact hHpos hHlt
    · right
      rw [has_overflow_iff]
      simp only [setY_x, setY_y, setY_shape]
      refine ⟨jm, i1, hjm1, ?_, hjm2, ?_⟩
      · rw [shape_square b jm hjm1]
        exact hi1n
      · apply in_bounds_relaxed_false
        omega

/-- C2 counterexample: for a block floating high above the field the
altitude is capped at the row count (4), and after dropping by 4 the
position one further row down still has neither collision nor overflow —
the distance is not the maximal descent for such blocks. -/
theorem C2_counterexample :
    has_collision c2field c2block = false ∧
    has_overflow c2field c2block = false ∧
    altitude c2field c2block = some 4 ∧
    has_collision c2field { c2block with y := c2block.y + 4 + 1 } = false ∧
    has_overflow c2field { c2block with y := c2block.y + 4 + 1 } = false := by
  refine ⟨by decide, by decide, by decide, by decide, by decide⟩

/-- C2 witness: an O block at the origin of the empty 4×4 field. -/
theorem C2_witness :
    ∃ a, altitude c2field ⟨.O, .Default, 0, 0, none, none, none⟩ = some a ∧
      drop c2field ⟨.O, .Default, 0, 0, none, none, none⟩
        = some (a, { (⟨.O, .Default, 0, 0, none, none, none⟩ : Block) with y := 0 + a }) ∧
      has_collision c2field
        { (⟨.O, .Default, 0, 0, none, none, none⟩ : Block) with y := 0 + a } = false ∧
      (has_collision c2field
          { (⟨.O, .Default, 0, 0, none, none, none⟩ : Block) with y := 0 + a + 1 } = true ∨
        has_overflow c2field
          { (⟨.O, .Default, 0, 0, none, none, none⟩ : Block) with y := 0 + a + 1 } = true) :=
  C2_drop_distance c2field ⟨.O, .Default, 0, 0, none, none, none⟩ 4
    (by unfold rectangular; decide) (by decide) (by decide) (by decide)
